import Mathlib

/-!
Verification development for the BPEtokenizer repository
(`src/tokenizer/base.py`, `src/tokenizer/regex.py`).

The Python code is shallowly embedded:

* a Python `str` is a list of Unicode code points (`Codes := List Nat`);
* a Python `bytes` value is a list of byte values (`List Nat`, each `< 256`);
* a Python `dict` is an insertion-ordered association list (`PyDict`);
* Python `int` is `Int`;
* fallible code returns `Except`, and the in-place mutation performed by
  `Tokenizer.load` is made explicit by returning the post-call state
  together with the error outcome;
* the Unicode regex engine used for pre-tokenization is external to the
  repository, so `re.findall(compiled_pattern, text)` is a parameter
  `findall : Codes → Codes → List Codes` of the functions that use it.

Loops with a data-dependent iteration count are written with an explicit
fuel argument that is instantiated with a provable upper bound on the
number of iterations at the call site; fuel-irrelevance lemmas are proved
where theorems depend on it.
-/

set_option maxRecDepth 100000

/-- A Python string, as its list of Unicode code points. -/
abbrev Codes := List Nat

/-- A Python dict, as an insertion-ordered association list. -/
abbrev PyDict (α β : Type) := List (α × β)

/-- `d[k]` / `k in d`: the value of the first (hence unique, for dicts built
by `dictInsert`) entry with key `k`. -/
def dictGet? {α β : Type} [DecidableEq α] : PyDict α β → α → Option β
  | [], _ => none
  | (k, v) :: rest, a => if k = a then some v else dictGet? rest a

/-- `d.get(k, dflt)`. -/
def dictGetD {α β : Type} [DecidableEq α] (d : PyDict α β) (a : α) (dflt : β) : β :=
  (dictGet? d a).getD dflt

/-- `d[k] = v`: update in place if the key is present (keeping its position,
as Python dicts do), otherwise append the new entry. -/
def dictInsert {α β : Type} [DecidableEq α] : PyDict α β → α → β → PyDict α β
  | [], a, b => [(a, b)]
  | (k, v) :: rest, a, b => if k = a then (k, b) :: rest else (k, v) :: dictInsert rest a b

/-- `list(d.keys())` (also the iteration order of `for k in d`). -/
def dictKeys {α β : Type} (d : PyDict α β) : List α := d.map Prod.fst

/-- `list(d.values())`. -/
def dictValues {α β : Type} (d : PyDict α β) : List β := d.map Prod.snd

/-- `{v: k for k, v in d.items()}` (later entries overwrite earlier ones on
duplicate values). -/
def invertDict {α β : Type} [DecidableEq β] (d : PyDict α β) : PyDict β α :=
  d.foldl (fun acc kv => dictInsert acc kv.2 kv.1) []

/-- The code points Python's `str.strip()` / `str.split()` treat as
whitespace. -/
def isPySpace (c : Nat) : Bool :=
  decide (c = 32 ∨ (9 ≤ c ∧ c ≤ 13) ∨ (28 ≤ c ∧ c ≤ 31) ∨ c = 133 ∨ c = 160 ∨
    c = 5760 ∨ (8192 ≤ c ∧ c ≤ 8202) ∨ c = 8232 ∨ c = 8233 ∨ c = 8239 ∨
    c = 8287 ∨ c = 12288)

/-- `s.strip()`. -/
def pyStrip (s : Codes) : Codes :=
  ((s.dropWhile isPySpace).reverse.dropWhile isPySpace).reverse

/-- Helper for `pySplitWs`: accumulates the current word (reversed). -/
def splitWsGo : Codes → Codes → List Codes
  | cur, [] => if cur = [] then [] else [cur.reverse]
  | cur, c :: rest =>
    if isPySpace c then
      if cur = [] then splitWsGo [] rest else cur.reverse :: splitWsGo [] rest
    else splitWsGo (c :: cur) rest

/-- `s.split()`: split on runs of whitespace, discarding empty pieces. -/
def pySplitWs (s : Codes) : List Codes := splitWsGo [] s

/-- Split a text-mode file's contents into the lines returned by repeated
`readline()` calls: every line keeps its trailing newline (code 10), the
final line may lack one, and end of file yields no further lines. -/
def splitLinesKeep (s : Codes) : List Codes :=
  s.foldr
    (fun c acc =>
      if c = 10 then [10] :: acc
      else match acc with
        | [] => [[c]]
        | x :: xs => (c :: x) :: xs)
    []

/-- `f.readline()` on a list of remaining lines: the empty string signals
end of file (a line inside the file is never empty, since it keeps its
newline). -/
def nextLine : List Codes → Codes × List Codes
  | [] => ([], [])
  | l :: rest => (l, rest)

/-- Decimal digits of `n`, most significant first; `fuel` bounds the
recursion depth (any `fuel > n` is enough). -/
def natReprAux : Nat → Nat → Codes
  | 0, _ => []
  | fuel + 1, n => if n < 10 then [48 + n] else natReprAux fuel (n / 10) ++ [48 + n % 10]

/-- `str(n)` for a natural number. -/
def natRepr (n : Nat) : Codes := natReprAux (n + 1) n

/-- `str(i)` / f-string rendering of a Python int. -/
def intRepr (i : Int) : Codes :=
  if i < 0 then 45 :: natRepr i.natAbs else natRepr i.toNat

/-- Is `c` an ASCII decimal digit? -/
def isDigitC (c : Nat) : Bool := decide (48 ≤ c ∧ c ≤ 57)

/-- Value of a nonempty all-digit string. -/
def digitsVal (s : Codes) : Nat := s.foldl (fun a c => a * 10 + (c - 48)) 0

/-- Parse a nonempty string of decimal digits. -/
def parseDigits (s : Codes) : Option Nat :=
  if s ≠ [] ∧ s.all isDigitC then some (digitsVal s) else none

/-- Python `int(s)`: strip whitespace, then an optional sign followed by at
least one decimal digit. -/
def pyInt (s : Codes) : Option Int :=
  match pyStrip s with
  | 45 :: ds => (parseDigits ds).map (fun n => -(n : Int))
  | 43 :: ds => (parseDigits ds).map (fun n => (n : Int))
  | ds => (parseDigits ds).map (fun n => (n : Int))

/-- Is `tok` a prefix of `s`? -/
def isPrefixC : Codes → Codes → Bool
  | [], _ => true
  | _ :: _, [] => false
  | a :: as, b :: bs => a = b && isPrefixC as bs

/-- Python `tok in text`: substring test. -/
def strIn (tok : Codes) : Codes → Bool
  | [] => isPrefixC tok []
  | c :: rest => isPrefixC tok (c :: rest) || strIn tok rest

/-- `max(d, key=d.get)` over a dict of counts: the first key whose value is
maximal, in iteration (= insertion) order; `none` on an empty dict, where
Python's `max` raises `ValueError`. -/
def maxBySnd {α : Type} : PyDict α Nat → Option α
  | [] => none
  | (k, v) :: rest =>
    some (rest.foldl (fun best kv => if best.2 < kv.2 then kv else best) (k, v)).1

-- sanity checks for the primitives
example : pyStrip [32, 65, 66, 10] = [65, 66] := by decide
example : pySplitWs [32, 65, 32, 32, 66, 49, 10] = [[65], [66, 49]] := by decide
example : splitLinesKeep [65, 10, 66] = [[65, 10], [66]] := by decide
example : splitLinesKeep [65, 10, 10] = [[65, 10], [10]] := by decide
example : natRepr 256 = [50, 53, 54] := by decide
example : pyInt [32, 50, 53, 54, 10] = some 256 := by decide
example : pyInt [45, 51] = some (-3) := by decide
example : pyInt [97] = none := by decide
example : strIn [66, 67] [65, 66, 67, 68] = true := by decide
example : strIn [67, 66] [65, 66, 67, 68] = false := by decide
example : maxBySnd [((1 : Int), 2), (2, 5), (3, 5)] = some 2 := by decide
example : invertDict [([65], (7 : Int)), ([66], 8)] = [(7, [65]), (8, [66])] := by decide

/-! ## UTF-8 (Python's `str.encode("utf-8")` and `bytes.decode("utf-8", errors="replace")`) -/

/-- UTF-8 encoding of a single code point (standard layout; matches
CPython's encoder on Unicode scalar values). -/
def utf8EncodeChar (c : Nat) : List Nat :=
  if c < 0x80 then [c]
  else if c < 0x800 then [0xC0 + c / 64, 0x80 + c % 64]
  else if c < 0x10000 then [0xE0 + c / 4096, 0x80 + c / 64 % 64, 0x80 + c % 64]
  else [0xF0 + c / 0x40000, 0x80 + c / 4096 % 64, 0x80 + c / 64 % 64, 0x80 + c % 64]

/-- `s.encode("utf-8")`. -/
def utf8Encode : Codes → List Nat
  | [] => []
  | c :: rest => utf8EncodeChar c ++ utf8Encode rest

/-- The code points on which Python's UTF-8 encoder is defined: Unicode
scalar values (no lone surrogates). -/
def ValidScalars (s : Codes) : Prop :=
  ∀ c ∈ s, c < 0x110000 ∧ (c < 0xD800 ∨ 0xE000 ≤ c)

instance : DecidablePred ValidScalars := fun s =>
  List.decidableBAll _ s

/-- Is `b` a UTF-8 continuation byte? -/
def isCont (b : Nat) : Bool := decide (0x80 ≤ b ∧ b ≤ 0xBF)

/-- Lower bound for the first continuation byte after lead byte `b`
(the E0/F0 rows of the standard UTF-8 table). -/
def cont2lo (b : Nat) : Nat := if b = 0xE0 then 0xA0 else if b = 0xF0 then 0x90 else 0x80

/-- Upper bound for the first continuation byte after lead byte `b`
(the ED/F4 rows of the standard UTF-8 table). -/
def cont2hi (b : Nat) : Nat := if b = 0xED then 0x9F else if b = 0xF4 then 0x8F else 0xBF

/-- Decode one code point from lead byte `b` and the following bytes `bs`;
returns the code point (`0xFFFD` on malformed input) and how many bytes of
`bs` were consumed in addition to `b`. -/
def decodeOne (b : Nat) (bs : List Nat) : Nat × Nat :=
  if b < 0x80 then (b, 0)
  else if 0xC2 ≤ b ∧ b ≤ 0xDF then
    match bs with
    | b1 :: _ =>
      if isCont b1 then ((b - 0xC0) * 64 + (b1 - 0x80), 1) else (0xFFFD, 0)
    | [] => (0xFFFD, 0)
  else if 0xE0 ≤ b ∧ b ≤ 0xEF then
    match bs with
    | b1 :: b2 :: _ =>
      if cont2lo b ≤ b1 ∧ b1 ≤ cont2hi b then
        if isCont b2 then ((b - 0xE0) * 4096 + (b1 - 0x80) * 64 + (b2 - 0x80), 2)
        else (0xFFFD, 1)
      else (0xFFFD, 0)
    | [b1] =>
      if cont2lo b ≤ b1 ∧ b1 ≤ cont2hi b then (0xFFFD, 1) else (0xFFFD, 0)
    | [] => (0xFFFD, 0)
  else if 0xF0 ≤ b ∧ b ≤ 0xF4 then
    match bs with
    | b1 :: b2 :: b3 :: _ =>
      if cont2lo b ≤ b1 ∧ b1 ≤ cont2hi b then
        if isCont b2 then
          if isCont b3 then
            ((b - 0xF0) * 0x40000 + (b1 - 0x80) * 4096 + (b2 - 0x80) * 64 + (b3 - 0x80), 3)
          else (0xFFFD, 2)
        else (0xFFFD, 1)
      else (0xFFFD, 0)
    | [b1, b2] =>
      if cont2lo b ≤ b1 ∧ b1 ≤ cont2hi b then
        if isCont b2 then (0xFFFD, 2) else (0xFFFD, 1)
      else (0xFFFD, 0)
    | [b1] =>
      if cont2lo b ≤ b1 ∧ b1 ≤ cont2hi b then (0xFFFD, 1) else (0xFFFD, 0)
    | [] => (0xFFFD, 0)
  else (0xFFFD, 0)

/-- Fuelled UTF-8 decoder with replacement; each step consumes at least one
byte, so `fuel ≥` the number of bytes is always enough. -/
def utf8DecodeAux : Nat → List Nat → Codes
  | 0, _ => []
  | _, [] => []
  | fuel + 1, b :: bs =>
    let r := decodeOne b bs
    r.1 :: utf8DecodeAux fuel (bs.drop r.2)

/-- `bytes.decode("utf-8", errors="replace")`. -/
def utf8DecodeReplace (l : List Nat) : Codes := utf8DecodeAux l.length l

example : utf8Encode [0x4F60] = [228, 189, 160] := by decide
example : utf8DecodeReplace [228, 189, 160] = [0x4F60] := by decide
example : utf8DecodeReplace [0x80, 65] = [0xFFFD, 65] := by decide
example : utf8Encode [0x10348] = [0xF0, 0x90, 0x8D, 0x88] := by decide
example : utf8DecodeReplace [0xF0, 0x90, 0x8D, 0x88] = [0x10348] := by decide

/-- Fuel irrelevance for the UTF-8 decoder: any two sufficient fuels agree. -/
theorem utf8DecodeAux_fuel2 (f1 : Nat) :
    ∀ (f2 : Nat) (l : List Nat), l.length ≤ f1 → l.length ≤ f2 →
      utf8DecodeAux f1 l = utf8DecodeAux f2 l := by
  induction f1 with
  | zero =>
    intro f2 l h1 _
    cases l with
    | nil => cases f2 <;> rfl
    | cons b bs => simp at h1
  | succ n ih =>
    intro f2 l h1 h2
    cases l with
    | nil => cases f2 <;> rfl
    | cons b bs =>
      cases f2 with
      | zero => simp at h2
      | succ m =>
        have hlen := List.length_drop (decodeOne b bs).2 bs
        simp only [List.length_cons] at h1 h2
        simp only [utf8DecodeAux]
        rw [ih m (bs.drop (decodeOne b bs).2) (by omega) (by omega)]

/-- Fuel irrelevance for the UTF-8 decoder. -/
theorem utf8DecodeAux_fuel (fuel : Nat) (l : List Nat) (h : l.length ≤ fuel) :
    utf8DecodeAux fuel l = utf8DecodeReplace l :=
  utf8DecodeAux_fuel2 fuel l.length l h le_rfl

/-- One decoding step of `utf8DecodeReplace`. -/
theorem utf8DecodeReplace_cons (b : Nat) (bs : List Nat) :
    utf8DecodeReplace (b :: bs) =
      (decodeOne b bs).1 :: utf8DecodeReplace (bs.drop (decodeOne b bs).2) := by
  have hlen := List.length_drop (decodeOne b bs).2 bs
  simp only [utf8DecodeReplace, List.length_cons, utf8DecodeAux]
  rw [utf8DecodeAux_fuel bs.length _ (by omega)]
  rfl


/-- The decoder accepts a 1-byte encoding. -/
theorem decodeOne_ascii (c : Nat) (h : c < 0x80) (bs : List Nat) :
    decodeOne c bs = (c, 0) := by
  simp only [decodeOne, if_pos h]

/-- The decoder accepts a 2-byte encoding. -/
theorem decodeOne_two (c : Nat) (h1 : 0x80 ≤ c) (h2 : c < 0x800) (tl : List Nat) :
    decodeOne (0xC0 + c / 64) ((0x80 + c % 64) :: tl) = (c, 1) := by
  have hb1 : ¬ (0xC0 + c / 64 < 0x80) := by omega
  have hb2 : 0xC2 ≤ 0xC0 + c / 64 ∧ 0xC0 + c / 64 ≤ 0xDF := by omega
  have hc : isCont (0x80 + c % 64) = true := by
    simp only [isCont, decide_eq_true_eq]; omega
  simp only [decodeOne, if_neg hb1, if_pos hb2, hc, if_true]
  have hv : (0xC0 + c / 64 - 0xC0) * 64 + (0x80 + c % 64 - 0x80) = c := by omega
  rw [hv]

/-- The decoder accepts a 3-byte encoding of a non-surrogate code point. -/
theorem decodeOne_three (c : Nat) (h1 : 0x800 ≤ c) (h2 : c < 0x10000)
    (hs : c < 0xD800 ∨ 0xE000 ≤ c) (tl : List Nat) :
    decodeOne (0xE0 + c / 4096) ((0x80 + c / 64 % 64) :: (0x80 + c % 64) :: tl) = (c, 2) := by
  have hb1 : ¬ (0xE0 + c / 4096 < 0x80) := by omega
  have hb2 : ¬ (0xC2 ≤ 0xE0 + c / 4096 ∧ 0xE0 + c / 4096 ≤ 0xDF) := by omega
  have hb3 : 0xE0 ≤ 0xE0 + c / 4096 ∧ 0xE0 + c / 4096 ≤ 0xEF := by omega
  have hlo : cont2lo (0xE0 + c / 4096) ≤ 0x80 + c / 64 % 64 := by
    simp only [cont2lo]
    split
    · next h => omega
    · split
      · next h h' => omega
      · omega
  have hhi : 0x80 + c / 64 % 64 ≤ cont2hi (0xE0 + c / 4096) := by
    simp only [cont2hi]
    split
    · next h => rcases hs with hs | hs <;> omega
    · split
      · next h h' => omega
      · omega
  have hmid : cont2lo (0xE0 + c / 4096) ≤ 0x80 + c / 64 % 64 ∧
      0x80 + c / 64 % 64 ≤ cont2hi (0xE0 + c / 4096) := ⟨hlo, hhi⟩
  have hc : isCont (0x80 + c % 64) = true := by
    simp only [isCont, decide_eq_true_eq]; omega
  simp only [decodeOne, if_neg hb1, if_neg hb2, if_pos hb3, if_pos hmid, hc, if_true]
  have hv : (0xE0 + c / 4096 - 0xE0) * 4096 + (0x80 + c / 64 % 64 - 0x80) * 64 +
      (0x80 + c % 64 - 0x80) = c := by omega
  rw [hv]

/-- The decoder accepts a 4-byte encoding. -/
theorem decodeOne_four (c : Nat) (h1 : 0x10000 ≤ c) (h2 : c < 0x110000) (tl : List Nat) :
    decodeOne (0xF0 + c / 0x40000)
      ((0x80 + c / 4096 % 64) :: (0x80 + c / 64 % 64) :: (0x80 + c % 64) :: tl) = (c, 3) := by
  have hb1 : ¬ (0xF0 + c / 0x40000 < 0x80) := by omega
  have hb2 : ¬ (0xC2 ≤ 0xF0 + c / 0x40000 ∧ 0xF0 + c / 0x40000 ≤ 0xDF) := by omega
  have hb3 : ¬ (0xE0 ≤ 0xF0 + c / 0x40000 ∧ 0xF0 + c / 0x40000 ≤ 0xEF) := by omega
  have hb4 : 0xF0 ≤ 0xF0 + c / 0x40000 ∧ 0xF0 + c / 0x40000 ≤ 0xF4 := by omega
  have hlo : cont2lo (0xF0 + c / 0x40000) ≤ 0x80 + c / 4096 % 64 := by
    simp only [cont2lo]
    split
    · next h => omega
    · split
      · next h h' => omega
      · omega
  have hhi : 0x80 + c / 4096 % 64 ≤ cont2hi (0xF0 + c / 0x40000) := by
    simp only [cont2hi]
    split
    · next h => omega
    · split
      · next h h' => omega
      · omega
  have hmid : cont2lo (0xF0 + c / 0x40000) ≤ 0x80 + c / 4096 % 64 ∧
      0x80 + c / 4096 % 64 ≤ cont2hi (0xF0 + c / 0x40000) := ⟨hlo, hhi⟩
  have hc2 : isCont (0x80 + c / 64 % 64) = true := by
    simp only [isCont, decide_eq_true_eq]; omega
  have hc3 : isCont (0x80 + c % 64) = true := by
    simp only [isCont, decide_eq_true_eq]; omega
  simp only [decodeOne, if_neg hb1, if_neg hb2, if_neg hb3, if_pos hb4, if_pos hmid,
    hc2, hc3, if_true]
  have hv : (0xF0 + c / 0x40000 - 0xF0) * 0x40000 + (0x80 + c / 4096 % 64 - 0x80) * 4096 +
      (0x80 + c / 64 % 64 - 0x80) * 64 + (0x80 + c % 64 - 0x80) = c := by omega
  rw [hv]

/-- UTF-8 round trip: decoding with replacement inverts encoding on every
sequence of Unicode scalar values. -/
theorem utf8_roundtrip (s : Codes) (h : ValidScalars s) :
    utf8DecodeReplace (utf8Encode s) = s := by
  induction s with
  | nil => rfl
  | cons c rest ih =>
    have hc := h c (List.mem_cons_self c rest)
    have ih' := ih (fun x hx => h x (List.mem_cons_of_mem _ hx))
    show utf8DecodeReplace (utf8EncodeChar c ++ utf8Encode rest) = c :: rest
    by_cases h1 : c < 0x80
    · rw [show utf8EncodeChar c = [c] by simp [utf8EncodeChar, h1]]
      rw [List.singleton_append, utf8DecodeReplace_cons, decodeOne_ascii c h1]
      simpa using ih'
    · by_cases h2 : c < 0x800
      · rw [show utf8EncodeChar c = [0xC0 + c / 64, 0x80 + c % 64] by
          simp [utf8EncodeChar, h1, h2]]
        simp only [List.cons_append, List.nil_append]
        rw [utf8DecodeReplace_cons, decodeOne_two c (by omega) h2]
        simpa using ih'
      · by_cases h3 : c < 0x10000
        · rw [show utf8EncodeChar c = [0xE0 + c / 4096, 0x80 + c / 64 % 64, 0x80 + c % 64] by
            simp [utf8EncodeChar, h1, h2, h3]]
          simp only [List.cons_append, List.nil_append]
          rw [utf8DecodeReplace_cons, decodeOne_three c (by omega) h3 hc.2]
          simpa using ih'
        · rw [show utf8EncodeChar c =
              [0xF0 + c / 0x40000, 0x80 + c / 4096 % 64, 0x80 + c / 64 % 64, 0x80 + c % 64] by
            simp [utf8EncodeChar, h1, h2, h3]]
          simp only [List.cons_append, List.nil_append]
          rw [utf8DecodeReplace_cons, decodeOne_four c (by omega) hc.1]
          simpa using ih'

/-- Every byte of the UTF-8 encoding of one scalar value is `< 256`. -/
theorem utf8EncodeChar_lt_256 (c : Nat) (h : c < 0x110000) :
    ∀ b ∈ utf8EncodeChar c, b < 256 := by
  intro b hb
  simp only [utf8EncodeChar] at hb
  by_cases h1 : c < 0x80
  · rw [if_pos h1] at hb
    simp only [List.mem_singleton] at hb
    omega
  · rw [if_neg h1] at hb
    by_cases h2 : c < 0x800
    · rw [if_pos h2] at hb
      simp only [List.mem_cons, List.mem_singleton, List.not_mem_nil, or_false] at hb
      rcases hb with hb | hb <;> omega
    · rw [if_neg h2] at hb
      by_cases h3 : c < 0x10000
      · rw [if_pos h3] at hb
        simp only [List.mem_cons, List.mem_singleton, List.not_mem_nil, or_false] at hb
        rcases hb with hb | hb | hb <;> omega
      · rw [if_neg h3] at hb
        simp only [List.mem_cons, List.mem_singleton, List.not_mem_nil, or_false] at hb
        rcases hb with hb | hb | hb | hb <;> omega

/-- Every byte produced by the UTF-8 encoder on scalar values is `< 256`. -/
theorem utf8Encode_lt_256 (s : Codes) (h : ValidScalars s) :
    ∀ b ∈ utf8Encode s, b < 256 := by
  induction s with
  | nil => intro b hb; simp [utf8Encode] at hb
  | cons c rest ih =>
    intro b hb
    rcases List.mem_append.1 hb with hb | hb
    · exact utf8EncodeChar_lt_256 c (h c (List.mem_cons_self c rest)).1 b hb
    · exact ih (fun x hx => h x (List.mem_cons_of_mem _ hx)) b hb

/-- The encoder distributes over append. -/
theorem utf8Encode_append (a b : Codes) :
    utf8Encode (a ++ b) = utf8Encode a ++ utf8Encode b := by
  induction a with
  | nil => rfl
  | cons c rest ih =>
    show utf8EncodeChar c ++ utf8Encode (rest ++ b) =
      (utf8EncodeChar c ++ utf8Encode rest) ++ utf8Encode b
    rw [ih, List.append_assoc]

/-- `list(bs)` on a Python `bytes` value: its bytes as Python ints. -/
def bytesToIds (bs : List Nat) : List Int := bs.map Int.ofNat

/-! ## Byte-pair primitives

`get_stats` and `merge` are imported by `src/tokenizer/regex.py` from
`tokenizer/helper.py`, a file of this repository that is not present under
`src/`; they are modelled from spec §4.1. -/

/-- Modelled from the spec: `count_pairs(ids, acc)` from the missing
`tokenizer/helper.py` — "increments, in the accumulator mapping Pair→count,
the count of every adjacent pair in `ids`"; insertion order of the
accumulator is first-appearance order, as for a Python dict. -/
def getStatsAcc (ids : List Int) (acc : PyDict (Int × Int) Nat) : PyDict (Int × Int) Nat :=
  (ids.zip ids.tail).foldl (fun d p => dictInsert d p (dictGetD d p 0 + 1)) acc

/-- `get_stats(ids)` with the default empty accumulator. -/
def getStats (ids : List Int) : PyDict (Int × Int) Nat := getStatsAcc ids []

/-- Modelled from the spec: `merge(ids, pair, idx)` from the missing
`tokenizer/helper.py` — "returns a new sequence in which every occurrence
of `pair` as adjacent positions (i, i+1) is replaced by a single element
`new_id`, scanning left-to-right and consuming both positions. Non-matching
positions are copied verbatim." -/
def mergeIds : List Int → Int × Int → Int → List Int
  | a :: b :: rest, p, idx =>
    if a = p.1 ∧ b = p.2 then idx :: mergeIds rest p idx
    else a :: mergeIds (b :: rest) p idx
  | l, _, _ => l

/-- Inverse of a single merge: replace every occurrence of `idx` by the
pair it stands for (used to state that `mergeIds` only rewrites occurrences
of the pair and copies everything else verbatim). -/
def expandIds (p0 p1 idx : Int) : List Int → List Int
  | [] => []
  | x :: rest => if x = idx then p0 :: p1 :: expandIds p0 p1 idx rest
                 else x :: expandIds p0 p1 idx rest

example : mergeIds [7, 7, 7] (7, 7) 9 = [9, 7] := by decide
example : mergeIds [1, 2, 1, 2, 2] (1, 2) 9 = [9, 9, 2] := by decide
example : getStats [1, 2, 1, 2] = [((1, 2), 2), ((2, 1), 1)] := by decide

/-! ## Tokenizer state, `_build_vocab`, construction -/

/-- The joint state of a `RegexTokenizer` (fields of `Tokenizer.__init__`
in `base.py` plus those added by `RegexTokenizer.__init__` in `regex.py`).
`compiled_pattern` is the pattern string the instance's compiled regex was
built from — it is set only in `__init__`, never by `load`. -/
structure Tokenizer where
  merges : PyDict (Int × Int) Int
  pattern : Codes
  special_tokens : PyDict Codes Int
  vocab : PyDict Int (List Nat)
  compiled_pattern : Codes
  inverse_special_tokens : PyDict Int Codes
deriving DecidableEq, Repr

/-- Decidable equality for `Except` results, used to evaluate concrete
instances. -/
instance exceptDecEq {e a : Type} [DecidableEq e] [DecidableEq a] : DecidableEq (Except e a) :=
  fun x y =>
    match x, y with
    | .ok v, .ok w =>
      if h : v = w then isTrue (by rw [h]) else isFalse (by intro he; injection he; contradiction)
    | .error v, .error w =>
      if h : v = w then isTrue (by rw [h]) else isFalse (by intro he; injection he; contradiction)
    | .ok _, .error _ => isFalse (fun he => Except.noConfusion he)
    | .error _, .ok _ => isFalse (fun he => Except.noConfusion he)

/-- Errors of `_build_vocab` (`base.py`). -/
inductive BuildErr where
  | parentMissing
  | specialConflict
deriving DecidableEq, Repr

/-- `{idx: bytes([idx]) for idx in range(256)}`. -/
def byteVocab : PyDict Int (List Nat) :=
  (List.range 256).map (fun i => (Int.ofNat i, [i]))

/-- The merge-processing loop of `_build_vocab`: for each `(p0, p1) → idx`
in insertion order, require `p0` and `p1` to be present and add
`vocab[idx] = vocab[p0] + vocab[p1]`. -/
def mergeVocabFold : PyDict (Int × Int) Int → PyDict Int (List Nat) →
    Except BuildErr (PyDict Int (List Nat))
  | [], v => .ok v
  | ((p0, p1), idx) :: rest, v =>
    match dictGet? v p0, dictGet? v p1 with
    | some b0, some b1 => mergeVocabFold rest (dictInsert v idx (b0 ++ b1))
    | _, _ => .error .parentMissing

/-- The special-token loop of `_build_vocab`: each special id must not be
present yet; add `vocab[idx] = special.encode("utf-8")`. -/
def specialVocabFold : PyDict Codes Int → PyDict Int (List Nat) →
    Except BuildErr (PyDict Int (List Nat))
  | [], v => .ok v
  | (tok, idx) :: rest, v =>
    if (dictGet? v idx).isSome then .error .specialConflict
    else specialVocabFold rest (dictInsert v idx (utf8Encode tok))

/-- `Tokenizer._build_vocab` (`base.py`): bytes, then merges in insertion
order, then special tokens. -/
def build_vocab (merges : PyDict (Int × Int) Int) (special_tokens : PyDict Codes Int) :
    Except BuildErr (PyDict Int (List Nat)) :=
  match mergeVocabFold merges byteVocab with
  | .error e => .error e
  | .ok v => specialVocabFold special_tokens v

/-- The default GPT-4 split pattern `GPT4_SPLIT_PATTERN` of `regex.py`,
as its list of code points. -/
def gpt4Pattern : Codes :=
  [39, 40, 63, 105, 58, 91, 115, 100, 109, 116, 93, 124, 108, 108, 124, 118,
   101, 124, 114, 101, 41, 124, 91, 94, 92, 114, 92, 110, 92, 112, 123, 76,
   125, 92, 112, 123, 78, 125, 93, 63, 43, 92, 112, 123, 76, 125, 43, 124,
   92, 112, 123, 78, 125, 123, 49, 44, 51, 125, 124, 32, 63, 91, 94, 92,
   115, 92, 112, 123, 76, 125, 92, 112, 123, 78, 125, 93, 43, 43, 91, 92,
   114, 92, 110, 93, 42, 124, 92, 115, 42, 91, 92, 114, 92, 110, 93, 124,
   92, 115, 43, 40, 63, 33, 92, 83, 41, 124, 92, 115, 43]

/-- `RegexTokenizer.__init__(pattern)`: the base constructor makes empty
merges/specials and the byte vocabulary (on which `_build_vocab` always
succeeds); then the split pattern is chosen and compiled and the
special-token maps are reset. -/
def mkRegexTokenizer (pattern : Option Codes) : Tokenizer :=
  { merges := []
    pattern := pattern.getD gpt4Pattern
    special_tokens := []
    vocab := byteVocab
    compiled_pattern := pattern.getD gpt4Pattern
    inverse_special_tokens := [] }

/-- `_build_vocab` with no merges and no specials indeed returns the byte
vocabulary assigned by the base constructor. -/
theorem build_vocab_empty : build_vocab [] [] = .ok byteVocab := rfl

/-- `RegexTokenizer.register_special_tokens` (`regex.py`). -/
def register_special_tokens (t : Tokenizer) (special_tokens : PyDict Codes Int) : Tokenizer :=
  { t with special_tokens := special_tokens
           inverse_special_tokens := invertDict special_tokens }

/-! ## Training (`RegexTokenizer.train`) -/

/-- Errors raised inside `train`. -/
inductive TrainErr where
  /-- `assert vocab_size >= 256` fails. -/
  | assertVocabSize
  /-- `max(stats, key=stats.get)` on an empty `stats` dict raises
  `ValueError: max() arg is an empty sequence`. -/
  | emptyStats
  /-- `vocab[pair[0]]` / `vocab[pair[1]]` raises `KeyError`. -/
  | keyError
deriving DecidableEq, Repr

/-- The merge loop of `train`: `fuel` is the number of remaining
iterations of `for i in range(num_merges)` and `i` the current index. -/
def trainLoop : Nat → Nat → List (List Int) → PyDict (Int × Int) Int →
    PyDict Int (List Nat) → Except TrainErr (PyDict (Int × Int) Int × PyDict Int (List Nat))
  | 0, _, _, merges, vocab => .ok (merges, vocab)
  | fuel + 1, i, ids, merges, vocab =>
    let stats := ids.foldl (fun acc chunk => getStatsAcc chunk acc) []
    match maxBySnd stats with
    | none => .error .emptyStats
    | some pair =>
      let idx : Int := 256 + i
      let ids' := ids.map (fun chunk => mergeIds chunk pair idx)
      match dictGet? vocab pair.1, dictGet? vocab pair.2 with
      | some b0, some b1 =>
        trainLoop fuel (i + 1) ids' (dictInsert merges pair idx)
          (dictInsert vocab idx (b0 ++ b1))
      | _, _ => .error .keyError

/-- `RegexTokenizer.train(text, vocab_size)`: on success only `merges` and
`vocab` are replaced; on an exception neither is assigned (they are built
in locals). -/
def trainTok (findall : Codes → Codes → List Codes) (t : Tokenizer)
    (text : Codes) (vocab_size : Nat) : Except TrainErr Tokenizer :=
  if vocab_size < 256 then .error .assertVocabSize
  else
    let text_chunks := findall t.compiled_pattern text
    let ids := text_chunks.map (fun ch => bytesToIds (utf8Encode ch))
    match trainLoop (vocab_size - 256) 0 ids [] byteVocab with
    | .error e => .error e
    | .ok (merges, vocab) => .ok { t with merges := merges, vocab := vocab }

/-! ## Encoding -/

/-- Strict comparison of merge ranks, where `none` models
`float("inf")` in `self.merges.get(p, float("inf"))`. -/
def rkLt : Option Int → Option Int → Bool
  | some a, some b => decide (a < b)
  | some _, none => true
  | none, _ => false

/-- `min(stats, key=lambda p: self.merges.get(p, float("inf")))`: the first
key (in dict iteration order) whose rank is minimal; `none` on an empty
dict. -/
def minByRank (merges : PyDict (Int × Int) Int) : List (Int × Int) → Option (Int × Int)
  | [] => none
  | p :: rest =>
    some (rest.foldl
      (fun best q => if rkLt (dictGet? merges q) (dictGet? merges best) then q else best) p)

/-- The `while len(ids) >= 2` loop of `RegexTokenizer._encode_chunk`;
`fuel` bounds the number of iterations (each one shortens `ids`, so
`ids.length` is always enough). -/
def encodeChunkAux (merges : PyDict (Int × Int) Int) : Nat → List Int → List Int
  | 0, ids => ids
  | fuel + 1, ids =>
    if ids.length < 2 then ids
    else
      match minByRank merges (dictKeys (getStats ids)) with
      | none => ids
      | some pair =>
        match dictGet? merges pair with
        | none => ids
        | some idx => encodeChunkAux merges fuel (mergeIds ids pair idx)

/-- `RegexTokenizer._encode_chunk(text_bytes)` applied to an id list. -/
def encodeChunk (merges : PyDict (Int × Int) Int) (ids : List Int) : List Int :=
  encodeChunkAux merges ids.length ids

/-- `RegexTokenizer.encode_ordinary(text)`. -/
def encode_ordinary (findall : Codes → Codes → List Codes) (t : Tokenizer)
    (text : Codes) : List Int :=
  ((findall t.compiled_pattern text).map
    (fun ch => encodeChunk t.merges (bytesToIds (utf8Encode ch)))).flatten

/-- The `allowed_special` argument of `encode`. -/
inductive AllowedSpecial where
  | all
  | none
  | noneRaise
  | subset (toks : List Codes)
deriving DecidableEq, Repr

/-- Errors raised inside `encode`. -/
inductive EncodeErr where
  /-- The `assert` under `"none_raise"` fails: a registered special token
  occurs in the text. -/
  | specialInText
deriving DecidableEq, Repr

/-- First special token (in dict order, matching the order of alternatives
in the `re.split` pattern built from the keys) matching at the current
position. -/
def firstTokAt (toks : List Codes) (s : Codes) : Option Codes :=
  toks.find? (fun tok => isPrefixC tok s)

/-- Splitting of the text on the capturing special-token alternation, as
`re.split(special_pattern, text)` does: alternating ordinary pieces and
matched special tokens (ordinary pieces may be empty). `fuel` bounds the
scan (text length + 1 is always enough). An empty special token is skipped
over one character, which regex alternation of escaped literals cannot
distinguish from no match. -/
def splitSpecialsAux (toks : List Codes) : Nat → Codes → Codes → List Codes
  | 0, pre, s => [pre ++ s]
  | _ + 1, pre, [] => [pre]
  | fuel + 1, pre, c :: rest =>
    match firstTokAt toks (c :: rest) with
    | some tok =>
      if tok = [] then splitSpecialsAux toks fuel (pre ++ [c]) rest
      else pre :: tok :: splitSpecialsAux toks fuel [] ((c :: rest).drop tok.length)
    | none => splitSpecialsAux toks fuel (pre ++ [c]) rest

/-- `re.split(special_pattern, text)` for the capturing alternation of the escaped special tokens. -/
def splitSpecials (toks : List Codes) (text : Codes) : List Codes :=
  splitSpecialsAux toks (text.length + 1) [] text

/-- The common tail of `encode` once the active `special` dict is fixed. -/
def encodeWithSpecial (findall : Codes → Codes → List Codes) (t : Tokenizer)
    (special : PyDict Codes Int) (text : Codes) : List Int :=
  if special = [] then encode_ordinary findall t text
  else
    ((splitSpecials (dictKeys special) text).map
      (fun part =>
        match dictGet? special part with
        | some id => [id]
        | none => encode_ordinary findall t part)).flatten

/-- `RegexTokenizer.encode(text, allowed_special)`. -/
def pyEncode (findall : Codes → Codes → List Codes) (t : Tokenizer)
    (text : Codes) (allowed_special : AllowedSpecial) : Except EncodeErr (List Int) :=
  match allowed_special with
  | .all => .ok (encodeWithSpecial findall t t.special_tokens text)
  | .none => .ok (encodeWithSpecial findall t [] text)
  | .noneRaise =>
    if (dictKeys t.special_tokens).all (fun tok => !(strIn tok text)) then
      .ok (encodeWithSpecial findall t [] text)
    else .error .specialInText
  | .subset toks =>
    .ok (encodeWithSpecial findall t
      (t.special_tokens.filter (fun kv => toks.contains kv.1)) text)

/-! ## Decoding (`RegexTokenizer.decode`) -/

/-- Error raised inside `decode`. -/
inductive DecodeErr where
  /-- `raise ValueError(f"invalid token id: \x7bidx\x7d")`. -/
  | unknownId
deriving DecidableEq, Repr

/-- The byte-collection loop of `decode`. -/
def decodeBytes (t : Tokenizer) : List Int → Except DecodeErr (List Nat)
  | [] => .ok []
  | idx :: rest =>
    match dictGet? t.vocab idx with
    | some bs =>
      match decodeBytes t rest with
      | .ok tl => .ok (bs ++ tl)
      | .error e => .error e
    | none =>
      match dictGet? t.inverse_special_tokens idx with
      | some tok =>
        match decodeBytes t rest with
        | .ok tl => .ok (utf8Encode tok ++ tl)
        | .error e => .error e
      | none => .error .unknownId

/-- `RegexTokenizer.decode(ids)`: join the byte strings, decode as UTF-8
with replacement. -/
def decodeTok (t : Tokenizer) (ids : List Int) : Except DecodeErr Codes :=
  match decodeBytes t ids with
  | .ok bs => .ok (utf8DecodeReplace bs)
  | .error e => .error e

/-! ## Persistence (`Tokenizer.save` model file, `Tokenizer.load`) -/

/-- The magic line `"BPEtokenizer Tokenizer v1"`. -/
def magicLine : Codes :=
  [66, 80, 69, 116, 111, 107, 101, 110, 105, 122, 101, 114, 32, 84, 111, 107,
   101, 110, 105, 122, 101, 114, 32, 118, 49]

/-- The special-token lines written by `save`: `f"{special} {idx}\n"` for
each entry in insertion order. -/
def saveSpecialLines : PyDict Codes Int → Codes
  | [] => []
  | (tok, idx) :: rest => tok ++ 32 :: intRepr idx ++ 10 :: saveSpecialLines rest

/-- The merge lines written by `save`: `f"{idx1} {idx2}\n"` for each key of
`merges` in insertion order (`for idx1, idx2 in self.merges`). -/
def saveMergeLines : PyDict (Int × Int) Int → Codes
  | [] => []
  | ((p0, p1), _) :: rest => intRepr p0 ++ 32 :: intRepr p1 ++ 10 :: saveMergeLines rest

/-- The contents of the `.model` file written by `Tokenizer.save`
(`base.py`): magic line, pattern line, special-token count, special-token
lines, merge lines. -/
def saveModel (t : Tokenizer) : Codes :=
  magicLine ++ 10 :: t.pattern ++ 10 :: natRepr t.special_tokens.length ++ 10 ::
    (saveSpecialLines t.special_tokens ++ saveMergeLines t.merges)

/-- Failure modes of `Tokenizer.load` (`base.py`). -/
inductive LoadErr where
  /-- `assert model_file.endswith(".model")` fails. -/
  | badName
  /-- The first line is not the expected magic/version string. -/
  | badMagic
  /-- `readline` for the special-token count hits end of file. -/
  | missingCount
  /-- `int(...)` on the count line fails. -/
  | badCount
  /-- Fewer special-token lines than declared. -/
  | truncatedSpecial
  /-- A special-token line does not split into `string id`, or its id does
  not parse. -/
  | badSpecialLine
  /-- A merge line does not split into two parseable integers. -/
  | badMergeLine
  /-- The final `_build_vocab` raises. -/
  | buildVocabErr
deriving DecidableEq, Repr

/-- The `for _ in range(num_special)` loop of `load`: read one line per
declared special token, split it into `special` and `special_idx`. -/
def readSpecials : Nat → List Codes → PyDict Codes Int →
    LoadErr ⊕ (PyDict Codes Int × List Codes)
  | 0, lines, acc => .inr (acc, lines)
  | n + 1, lines, acc =>
    match nextLine lines with
    | (line, rest) =>
      if line = [] then .inl .truncatedSpecial
      else
        match pySplitWs (pyStrip line) with
        | [tok, idxStr] =>
          match pyInt idxStr with
          | some v => readSpecials n rest (dictInsert acc tok v)
          | none => .inl .badSpecialLine
        | _ => .inl .badSpecialLine

/-- The `for line in f` loop of `load`: skip blank lines, parse each other
line as two integers, and number the merges consecutively from 256. -/
def readMerges : List Codes → Int → PyDict (Int × Int) Int →
    LoadErr ⊕ PyDict (Int × Int) Int
  | [], _, acc => .inr acc
  | line :: rest, idx, acc =>
    if pyStrip line = [] then readMerges rest idx acc
    else
      match pySplitWs line with
      | [aStr, bStr] =>
        match pyInt aStr, pyInt bStr with
        | some i1, some i2 => readMerges rest (idx + 1) (dictInsert acc (i1, i2) idx)
        | _, _ => .inl .badMergeLine
      | _ => .inl .badMergeLine

/-- `Tokenizer.load(model_file)` (`base.py`). `nameOk` stands for
`model_file.endswith(".model")` and `file` for the file's contents. The
returned tokenizer is the state of the instance *after* the call even when
it fails: `self.pattern` is assigned as soon as the pattern line is read,
and `self.merges` / `self.special_tokens` are assigned before
`_build_vocab` runs, so failures after those points leave them
overwritten. -/
def loadTok (t : Tokenizer) (nameOk : Bool) (file : Codes) : Tokenizer × Option LoadErr :=
  if !nameOk then (t, some .badName)
  else
    let lines := splitLinesKeep file
    match nextLine lines with
    | (l1, rest1) =>
      if pyStrip l1 ≠ magicLine then (t, some .badMagic)
      else
        match nextLine rest1 with
        | (l2, rest2) =>
          let t1 := { t with pattern := pyStrip l2 }
          match nextLine rest2 with
          | (l3, rest3) =>
            if l3 = [] then (t1, some .missingCount)
            else
              match pyInt l3 with
              | none => (t1, some .badCount)
              | some n =>
                match readSpecials n.toNat rest3 [] with
                | .inl e => (t1, some e)
                | .inr (specials, rest4) =>
                  match readMerges rest4 256 [] with
                  | .inl e => (t1, some e)
                  | .inr merges =>
                    let t2 := { t1 with merges := merges, special_tokens := specials }
                    match build_vocab merges specials with
                    | .error _ => (t2, some .buildVocabErr)
                    | .ok v => ({ t2 with vocab := v }, none)

-- end-to-end sanity checks of the persistence model
example :
    (loadTok (mkRegexTokenizer none) true (saveModel (mkRegexTokenizer none))).2 = none := by
  decide
example :
    (loadTok (mkRegexTokenizer none) true (saveModel (mkRegexTokenizer none))).1.merges = [] := by
  decide
example :
    (loadTok (mkRegexTokenizer none) false [] ) = (mkRegexTokenizer none, some .badName) := by
  decide

/-! ## Shared lemmas about the primitives -/

/-- Adjacent pairs of a list, `zip(ids, ids[1:])`. -/
def adjPairs (l : List Int) : List (Int × Int) := l.zip l.tail

/-- `getStatsAcc` is the fold of insertions over the adjacent pairs. -/
theorem getStatsAcc_eq (ids : List Int) (acc : PyDict (Int × Int) Nat) :
    getStatsAcc ids acc =
      (adjPairs ids).foldl (fun d p => dictInsert d p (dictGetD d p 0 + 1)) acc := rfl

/-- Key membership after one insertion. -/
theorem mem_dictKeys_insert {α β : Type} [DecidableEq α] (d : PyDict α β) (k : α) (v : β)
    (a : α) : a ∈ dictKeys (dictInsert d k v) ↔ a ∈ dictKeys d ∨ a = k := by
  induction d with
  | nil => simp [dictInsert, dictKeys, eq_comm]
  | cons kv rest ih =>
    obtain ⟨k', v'⟩ := kv
    by_cases hk : k' = k
    · subst hk
      rw [show dictInsert ((k', v') :: rest) k' v = (k', v) :: rest by simp [dictInsert]]
      simp only [dictKeys, List.map_cons, List.mem_cons]
      tauto
    · simp only [dictInsert, if_neg hk, dictKeys, List.map_cons, List.mem_cons]
      have ih' : a ∈ List.map Prod.fst (dictInsert rest k v) ↔
          a ∈ List.map Prod.fst rest ∨ a = k := ih
      rw [ih']
      tauto

/-- Key membership after a fold of insertions. -/
theorem mem_dictKeys_foldl_insert {α β : Type} [DecidableEq α]
    (g : PyDict α β → α → β) (l : List α) :
    ∀ (acc : PyDict α β) (a : α),
      a ∈ dictKeys (l.foldl (fun d p => dictInsert d p (g d p)) acc) ↔
        a ∈ dictKeys acc ∨ a ∈ l := by
  induction l with
  | nil => intro acc a; simp
  | cons p rest ih =>
    intro acc a
    simp only [List.foldl_cons, List.mem_cons]
    rw [ih, mem_dictKeys_insert]
    tauto

/-- The keys of `get_stats` are exactly the adjacent pairs. -/
theorem mem_keys_getStats (ids : List Int) (p : Int × Int) :
    p ∈ dictKeys (getStats ids) ↔ p ∈ adjPairs ids := by
  rw [getStats, getStatsAcc_eq, mem_dictKeys_foldl_insert]
  simp [dictKeys]

/-- A fold by a binary choice function stays inside the candidates. -/
theorem foldl_choice {α : Type} (g : α → α → α) (hg : ∀ a b, g a b = a ∨ g a b = b) :
    ∀ (l : List α) (x : α), l.foldl g x ∈ x :: l := by
  intro l
  induction l with
  | nil => intro x; simp
  | cons y rest ih =>
    intro x
    simp only [List.foldl_cons]
    rcases hg x y with he | he <;> rw [he]
    · rcases List.mem_cons.1 (ih x) with h | h
      · exact List.mem_cons.2 (Or.inl h)
      · exact List.mem_cons.2 (Or.inr (List.mem_cons.2 (Or.inr h)))
    · rcases List.mem_cons.1 (ih y) with h | h
      · exact List.mem_cons.2 (Or.inr (List.mem_cons.2 (Or.inl h)))
      · exact List.mem_cons.2 (Or.inr (List.mem_cons.2 (Or.inr h)))

theorem rkLt_irrefl (a : Option Int) : rkLt a a = false := by
  cases a <;> simp [rkLt]

theorem rkLt_trans {a b c : Option Int} (h1 : rkLt a b = true) (h2 : rkLt b c = true) :
    rkLt a c = true := by
  cases a <;> cases b <;> cases c <;> (simp_all [rkLt]; try omega)

theorem rkLt_neg_trans {a b c : Option Int} (h1 : rkLt b c = true) (h2 : rkLt b a = false) :
    rkLt a c = true := by
  cases a <;> cases b <;> cases c <;> (simp_all [rkLt]; try omega)

/-- The result of `min(..., key=rank)` is one of the candidates. -/
theorem minByRank_mem (merges : PyDict (Int × Int) Int) (l : List (Int × Int))
    (m : Int × Int) (h : minByRank merges l = some m) : m ∈ l := by
  cases l with
  | nil => simp [minByRank] at h
  | cons p rest =>
    simp only [minByRank, Option.some.injEq] at h
    have := foldl_choice
      (fun best q => if rkLt (dictGet? merges q) (dictGet? merges best) then q else best)
      (fun a b => by dsimp only; split <;> [right; left] <;> rfl) rest p
    rw [h] at this
    exact this

/-- Invariant of the `min` fold: nothing seen is strictly below the result. -/
theorem minFold_min (merges : PyDict (Int × Int) Int) :
    ∀ (rest : List (Int × Int)) (x : Int × Int),
      rkLt (dictGet? merges x)
        (dictGet? merges (rest.foldl
          (fun best q => if rkLt (dictGet? merges q) (dictGet? merges best) then q else best)
          x)) = false ∧
      ∀ q ∈ rest,
        rkLt (dictGet? merges q)
          (dictGet? merges (rest.foldl
            (fun best q => if rkLt (dictGet? merges q) (dictGet? merges best) then q else best)
            x)) = false := by
  intro rest
  induction rest with
  | nil => intro x; exact ⟨rkLt_irrefl _, by simp⟩
  | cons q rest ih =>
    intro x
    simp only [List.foldl_cons]
    by_cases hq : rkLt (dictGet? merges q) (dictGet? merges x) = true
    · rw [if_pos hq]
      obtain ⟨h1, h2⟩ := ih q
      refine ⟨?_, ?_⟩
      · by_contra hx
        rw [Bool.not_eq_false] at hx
        exact absurd (rkLt_trans hq hx) (by rw [h1]; simp)
      · intro z hz
        rcases List.mem_cons.1 hz with hz | hz
        · subst hz; exact h1
        · exact h2 z hz
    · rw [Bool.not_eq_true] at hq
      rw [if_neg (by rw [hq]; simp)]
      obtain ⟨h1, h2⟩ := ih x
      refine ⟨h1, ?_⟩
      intro z hz
      rcases List.mem_cons.1 hz with hz | hz
      · subst hz
        by_contra hzr
        rw [Bool.not_eq_false] at hzr
        exact absurd (rkLt_neg_trans hzr hq) (by rw [h1]; simp)
      · exact h2 z hz

/-- The result of `min(..., key=rank)` has minimal rank among the
candidates. -/
theorem minByRank_min (merges : PyDict (Int × Int) Int) (l : List (Int × Int))
    (m : Int × Int) (h : minByRank merges l = some m) :
    ∀ q ∈ l, rkLt (dictGet? merges q) (dictGet? merges m) = false := by
  cases l with
  | nil => simp [minByRank] at h
  | cons p rest =>
    simp only [minByRank, Option.some.injEq] at h
    obtain ⟨h1, h2⟩ := minFold_min merges rest p
    rw [h] at h1 h2
    intro q hq
    rcases List.mem_cons.1 hq with hq | hq
    · subst hq; exact h1
    · exact h2 q hq

/-- On a nonempty candidate list, `min` returns a value. -/
theorem minByRank_isSome (merges : PyDict (Int × Int) Int) (l : List (Int × Int))
    (h : l ≠ []) : (minByRank merges l).isSome := by
  cases l with
  | nil => exact absurd rfl h
  | cons p rest => simp [minByRank]

/-- If some candidate has a finite rank, the minimum has a finite rank. -/
theorem minByRank_finite (merges : PyDict (Int × Int) Int) (l : List (Int × Int))
    (m p : Int × Int) (h : minByRank merges l = some m) (hp : p ∈ l)
    (hfin : dictGet? merges p ≠ none) : dictGet? merges m ≠ none := by
  intro hm
  have := minByRank_min merges l m h p hp
  rw [hm] at this
  cases hget : dictGet? merges p with
  | none => exact hfin hget
  | some v => rw [hget] at this; simp [rkLt] at this

/-- `mergeIds` never lengthens the list. -/
theorem mergeIds_length_le : ∀ (l : List Int) (p : Int × Int) (idx : Int),
    (mergeIds l p idx).length ≤ l.length
  | [], _, _ => le_rfl
  | [_], _, _ => le_rfl
  | a :: b :: rest, p, idx => by
    by_cases h : a = p.1 ∧ b = p.2
    · simp only [mergeIds, if_pos h, List.length_cons]
      have := mergeIds_length_le rest p idx
      omega
    · simp only [mergeIds, if_neg h, List.length_cons]
      have := mergeIds_length_le (b :: rest) p idx
      simp only [List.length_cons] at this
      omega

/-- `mergeIds` strictly shortens the list when the pair occurs adjacently. -/
theorem mergeIds_length_lt : ∀ (l : List Int) (p : Int × Int) (idx : Int),
    p ∈ adjPairs l → (mergeIds l p idx).length < l.length
  | [], _, _, h => by simp [adjPairs] at h
  | [_], _, _, h => by simp [adjPairs] at h
  | a :: b :: rest, p, idx, h => by
    by_cases hm : a = p.1 ∧ b = p.2
    · simp only [mergeIds, if_pos hm, List.length_cons]
      have := mergeIds_length_le rest p idx
      omega
    · simp only [mergeIds, if_neg hm, List.length_cons]
      have hmem : p ∈ adjPairs (b :: rest) := by
        simp only [adjPairs, List.zip, List.tail_cons, List.zipWith_cons_cons,
          List.mem_cons] at h
        rcases h with h | h
        · exact absurd ⟨h ▸ rfl, h ▸ rfl⟩ hm
        · exact h
      have := mergeIds_length_lt (b :: rest) p idx hmem
      simp only [List.length_cons] at this ⊢
      omega

/-- Adjacent pairs of a cons. -/
theorem adjPairs_cons (a : Int) (l : List Int) :
    adjPairs (a :: l) = (match l with | [] => [] | b :: _ => (a, b) :: adjPairs l) := by
  cases l <;> rfl

/-- Unfolding of one loop iteration that finds no candidate pair. -/
theorem encodeChunkAux_succ_noMin (merges : PyDict (Int × Int) Int) (fuel : Nat)
    (ids : List Int) (h : ¬ ids.length < 2)
    (hmin : minByRank merges (dictKeys (getStats ids)) = none) :
    encodeChunkAux merges (fuel + 1) ids = ids := by
  simp only [encodeChunkAux, if_neg h, hmin]

/-- Unfolding of one loop iteration whose minimal pair is not in `merges`
(the `break`). -/
theorem encodeChunkAux_succ_break (merges : PyDict (Int × Int) Int) (fuel : Nat)
    (ids : List Int) (pair : Int × Int) (h : ¬ ids.length < 2)
    (hmin : minByRank merges (dictKeys (getStats ids)) = some pair)
    (hget : dictGet? merges pair = none) :
    encodeChunkAux merges (fuel + 1) ids = ids := by
  simp only [encodeChunkAux, if_neg h, hmin, hget]

/-- Unfolding of one merging loop iteration. -/
theorem encodeChunkAux_succ_step (merges : PyDict (Int × Int) Int) (fuel : Nat)
    (ids : List Int) (pair : Int × Int) (idx : Int) (h : ¬ ids.length < 2)
    (hmin : minByRank merges (dictKeys (getStats ids)) = some pair)
    (hget : dictGet? merges pair = some idx) :
    encodeChunkAux merges (fuel + 1) ids = encodeChunkAux merges fuel (mergeIds ids pair idx) := by
  simp only [encodeChunkAux, if_neg h, hmin, hget]

/-- Fuel irrelevance for the `_encode_chunk` loop: any two fuels at least
the list length give the same result. -/
theorem encodeChunkAux_fuel2 (merges : PyDict (Int × Int) Int) :
    ∀ (f1 f2 : Nat) (ids : List Int), ids.length ≤ f1 → ids.length ≤ f2 →
      encodeChunkAux merges f1 ids = encodeChunkAux merges f2 ids := by
  intro f1
  induction f1 with
  | zero =>
    intro f2 ids h1 _
    have : ids = [] := List.eq_nil_of_length_eq_zero (Nat.le_zero.1 h1)
    subst this
    cases f2 with
    | zero => rfl
    | succ m => simp [encodeChunkAux]
  | succ n ih =>
    intro f2 ids h1 h2
    cases f2 with
    | zero =>
      have : ids = [] := List.eq_nil_of_length_eq_zero (Nat.le_zero.1 h2)
      subst this
      simp [encodeChunkAux]
    | succ m =>
      by_cases hlen : ids.length < 2
      · simp only [encodeChunkAux, if_pos hlen]
      · cases hmin : minByRank merges (dictKeys (getStats ids)) with
        | none =>
          rw [encodeChunkAux_succ_noMin merges n ids hlen hmin,
            encodeChunkAux_succ_noMin merges m ids hlen hmin]
        | some pair =>
          cases hget : dictGet? merges pair with
          | none =>
            rw [encodeChunkAux_succ_break merges n ids pair hlen hmin hget,
              encodeChunkAux_succ_break merges m ids pair hlen hmin hget]
          | some idx =>
            rw [encodeChunkAux_succ_step merges n ids pair idx hlen hmin hget,
              encodeChunkAux_succ_step merges m ids pair idx hlen hmin hget]
            have hpadj : pair ∈ adjPairs ids :=
              (mem_keys_getStats ids pair).1 (minByRank_mem merges _ pair hmin)
            have hlt := mergeIds_length_lt ids pair idx hpadj
            exact ih m (mergeIds ids pair idx) (by omega) (by omega)

/-- One iteration of the `_encode_chunk` loop, stated on `encodeChunk`. -/
theorem encodeChunk_step (merges : PyDict (Int × Int) Int) (ids : List Int)
    (pair : Int × Int) (idx : Int) (h2 : ¬ ids.length < 2)
    (hmin : minByRank merges (dictKeys (getStats ids)) = some pair)
    (hget : dictGet? merges pair = some idx) :
    encodeChunk merges ids = encodeChunk merges (mergeIds ids pair idx) := by
  have hpadj : pair ∈ adjPairs ids :=
    (mem_keys_getStats ids pair).1 (minByRank_mem merges _ pair hmin)
  have hlt := mergeIds_length_lt ids pair idx hpadj
  show encodeChunkAux merges ids.length ids = _
  obtain ⟨n, hn⟩ : ∃ n, ids.length = n + 1 := ⟨ids.length - 1, by omega⟩
  rw [hn, encodeChunkAux_succ_step merges n ids pair idx h2 hmin hget]
  exact encodeChunkAux_fuel2 merges n (mergeIds ids pair idx).length _ (by omega) le_rfl

/-- The `_encode_chunk` loop leaves a list alone (for any fuel) when no
adjacent pair is a key of `merges`. -/
theorem encodeChunkAux_stop (merges : PyDict (Int × Int) Int) (ids : List Int)
    (h : ∀ p ∈ adjPairs ids, dictGet? merges p = none) :
    ∀ fuel, encodeChunkAux merges fuel ids = ids := by
  intro fuel
  cases fuel with
  | zero => rfl
  | succ n =>
    by_cases hlen : ids.length < 2
    · simp only [encodeChunkAux, if_pos hlen]
    · cases hmin : minByRank merges (dictKeys (getStats ids)) with
      | none => exact encodeChunkAux_succ_noMin merges n ids hlen hmin
      | some pair =>
        have hpadj : pair ∈ adjPairs ids :=
          (mem_keys_getStats ids pair).1 (minByRank_mem merges _ pair hmin)
        exact encodeChunkAux_succ_break merges n ids pair hlen hmin (h pair hpadj)

/-- The `_encode_chunk` loop leaves a list alone when no adjacent pair is a
key of `merges`. -/
theorem encodeChunk_stop (merges : PyDict (Int × Int) Int) (ids : List Int)
    (h : ∀ p ∈ adjPairs ids, dictGet? merges p = none) :
    encodeChunk merges ids = ids :=
  encodeChunkAux_stop merges ids h ids.length

/-! ## Lemmas about `mergeIds` used for claim C8 -/

theorem adjPairs_nil : adjPairs [] = [] := rfl

theorem adjPairs_single (a : Int) : adjPairs [a] = [] := rfl

theorem adjPairs_cons_cons (x y : Int) (l : List Int) :
    adjPairs (x :: y :: l) = (x, y) :: adjPairs (y :: l) := rfl

/-- `mergeIds` of a nonempty list starts with the new id or the old head. -/
theorem mergeIds_head (b : Int) (rest : List Int) (p : Int × Int) (idx : Int) :
    ∃ tl, mergeIds (b :: rest) p idx = idx :: tl ∨ mergeIds (b :: rest) p idx = b :: tl := by
  cases rest with
  | nil => exact ⟨[], Or.inr rfl⟩
  | cons c rest' =>
    by_cases hm : b = p.1 ∧ c = p.2
    · exact ⟨mergeIds rest' p idx, Or.inl (by simp only [mergeIds, if_pos hm])⟩
    · exact ⟨mergeIds (c :: rest') p idx, Or.inr (by simp only [mergeIds, if_neg hm])⟩

/-- Expanding the new id recovers the original list: every replaced block
was exactly an occurrence of the pair, and everything else was copied
verbatim. -/
theorem expand_mergeIds (p0 p1 idx : Int) :
    ∀ ids : List Int, idx ∉ ids →
      expandIds p0 p1 idx (mergeIds ids (p0, p1) idx) = ids
  | [], _ => rfl
  | [a], h => by
    have ha : a ≠ idx := fun he => h (by simp [he])
    show expandIds p0 p1 idx [a] = [a]
    simp [expandIds, ha]
  | a :: b :: rest, h => by
    have ha : a ≠ idx := fun he => h (by simp [he])
    by_cases hm : a = p0 ∧ b = p1
    · rw [show mergeIds (a :: b :: rest) (p0, p1) idx = idx :: mergeIds rest (p0, p1) idx by
        simp only [mergeIds]; rw [if_pos ⟨hm.1, hm.2⟩]]
      have hexp : expandIds p0 p1 idx (idx :: mergeIds rest (p0, p1) idx) =
          p0 :: p1 :: expandIds p0 p1 idx (mergeIds rest (p0, p1) idx) := by
        simp [expandIds]
      rw [hexp, expand_mergeIds p0 p1 idx rest (fun hx => h (by simp [hx]))]
      rw [hm.1, hm.2]
    · rw [show mergeIds (a :: b :: rest) (p0, p1) idx = a :: mergeIds (b :: rest) (p0, p1) idx by
        simp only [mergeIds]; rw [if_neg hm]]
      simp only [expandIds, if_neg ha]
      rw [expand_mergeIds p0 p1 idx (b :: rest) (fun hx => h (by simp [hx]))]

/-- After `mergeIds` with a fresh id, the pair no longer occurs adjacently:
every occurrence was replaced. -/
theorem noPair_mergeIds (p0 p1 idx : Int) (h0 : idx ≠ p0) (h1 : idx ≠ p1) :
    ∀ ids : List Int, (p0, p1) ∉ adjPairs (mergeIds ids (p0, p1) idx)
  | [] => by simp [mergeIds, adjPairs_nil]
  | [a] => by
    show (p0, p1) ∉ adjPairs [a]
    simp [adjPairs_single]
  | a :: b :: rest => by
    by_cases hm : a = p0 ∧ b = p1
    · rw [show mergeIds (a :: b :: rest) (p0, p1) idx = idx :: mergeIds rest (p0, p1) idx by
        simp only [mergeIds]; rw [if_pos ⟨hm.1, hm.2⟩]]
      intro hmem
      cases hM : mergeIds rest (p0, p1) idx with
      | nil => rw [hM] at hmem; exact absurd hmem (by simp [adjPairs_single])
      | cons x tl =>
        rw [hM, adjPairs_cons_cons] at hmem
        rcases List.mem_cons.1 hmem with hmem | hmem
        · exact h0 (by injection hmem with hfst _; exact hfst.symm)
        · exact noPair_mergeIds p0 p1 idx h0 h1 rest (hM ▸ hmem)
    · rw [show mergeIds (a :: b :: rest) (p0, p1) idx = a :: mergeIds (b :: rest) (p0, p1) idx by
        simp only [mergeIds]; rw [if_neg hm]]
      intro hmem
      obtain ⟨tl, hsh | hsh⟩ := mergeIds_head b rest (p0, p1) idx
      · rw [hsh, adjPairs_cons_cons] at hmem
        rcases List.mem_cons.1 hmem with hmem | hmem
        · exact h1 (by injection hmem with _ hsnd; exact hsnd.symm)
        · rw [← hsh] at hmem
          exact noPair_mergeIds p0 p1 idx h0 h1 (b :: rest) hmem
      · rw [hsh, adjPairs_cons_cons] at hmem
        rcases List.mem_cons.1 hmem with hmem | hmem
        · exact hm ⟨(by injection hmem with hfst _; exact hfst.symm),
            (by injection hmem with _ hsnd; exact hsnd.symm)⟩
        · rw [← hsh] at hmem
          exact noPair_mergeIds p0 p1 idx h0 h1 (b :: rest) hmem

/-! ## Claim theorems -/

/-- C8: the pair-rewriting primitive `merge` returns a new sequence in
which every adjacent occurrence of the pair is replaced by the new id,
scanning left-to-right and consuming both positions — expanding the new id
back recovers the input exactly (so replaced blocks were occurrences and
all other positions are copied verbatim), no adjacent occurrence of the
pair remains, and `(a, a, a)` with pair `(a, a)` becomes `(new_id, a)`. -/
theorem claim_C8_merge_rewrites_all (ids : List Int) (p0 p1 idx : Int)
    (hni : idx ∉ ids) (h0 : idx ≠ p0) (h1 : idx ≠ p1) :
    expandIds p0 p1 idx (mergeIds ids (p0, p1) idx) = ids ∧
    (p0, p1) ∉ adjPairs (mergeIds ids (p0, p1) idx) ∧
    mergeIds [p0, p0, p0] (p0, p0) idx = [idx, p0] := by
  refine ⟨expand_mergeIds p0 p1 idx ids hni, noPair_mergeIds p0 p1 idx h0 h1 ids, ?_⟩
  simp [mergeIds, h0.symm]

/-- Witness for C8 at a concrete input. -/
theorem claim_C8_witness :
    expandIds 5 6 9 (mergeIds [5, 6, 5] (5, 6) 9) = [5, 6, 5] ∧
    (5, 6) ∉ adjPairs (mergeIds [5, 6, 5] (5, 6) 9) ∧
    mergeIds [5, 5, 5] (5, 5) 9 = [9, 5] :=
  claim_C8_merge_rewrites_all [5, 6, 5] 5 6 9 (by decide) (by decide) (by decide)

/-- C9: `register_special_tokens` replaces the special-token map and its
inverse and changes nothing else — pattern, compiled pattern, merges and
vocab are exactly as before, and in particular no id is added to (or
removed from) the vocabulary. -/
theorem claim_C9_register_frame (t : Tokenizer) (m : PyDict Codes Int) :
    (register_special_tokens t m).special_tokens = m ∧
    (register_special_tokens t m).inverse_special_tokens = invertDict m ∧
    (register_special_tokens t m).pattern = t.pattern ∧
    (register_special_tokens t m).compiled_pattern = t.compiled_pattern ∧
    (register_special_tokens t m).merges = t.merges ∧
    (register_special_tokens t m).vocab = t.vocab ∧
    (∀ idx : Int, idx ∈ dictKeys (register_special_tokens t m).vocab ↔ idx ∈ dictKeys t.vocab) :=
  ⟨rfl, rfl, rfl, rfl, rfl, rfl, fun _ => Iff.rfl⟩

/-- C4: in the greedy merge loop of `_encode_chunk`, while the id list has
length ≥ 2: if no adjacent pair of the current list is a key of `merges`
the loop stops and returns the list unchanged, and otherwise it continues
by merging an adjacent pair whose rank in `merges` is minimal among the
adjacent pairs present (pairs absent from `merges` rank as +∞). -/
theorem claim_C4_greedy_min_rank (merges : PyDict (Int × Int) Int) (ids : List Int)
    (h2 : 2 ≤ ids.length) :
    ((∀ p ∈ adjPairs ids, dictGet? merges p = none) → encodeChunk merges ids = ids) ∧
    ((∃ p ∈ adjPairs ids, dictGet? merges p ≠ none) →
      ∃ pair idx, pair ∈ adjPairs ids ∧ dictGet? merges pair = some idx ∧
        (∀ q ∈ adjPairs ids, rkLt (dictGet? merges q) (dictGet? merges pair) = false) ∧
        encodeChunk merges ids = encodeChunk merges (mergeIds ids pair idx)) := by
  constructor
  · exact encodeChunk_stop merges ids
  · rintro ⟨p, hp, hpfin⟩
    have hkeys : p ∈ dictKeys (getStats ids) := (mem_keys_getStats ids p).2 hp
    have hne : dictKeys (getStats ids) ≠ [] := fun he => by rw [he] at hkeys; simp at hkeys
    obtain ⟨pair, hmin⟩ := Option.isSome_iff_exists.1 (minByRank_isSome merges _ hne)
    have hpadj : pair ∈ adjPairs ids :=
      (mem_keys_getStats ids pair).1 (minByRank_mem merges _ pair hmin)
    have hfin : dictGet? merges pair ≠ none :=
      minByRank_finite merges _ pair p hmin hkeys hpfin
    obtain ⟨idx, hget⟩ := Option.ne_none_iff_exists'.1 hfin
    refine ⟨pair, idx, hpadj, hget, ?_, ?_⟩
    · intro q hq
      exact minByRank_min merges _ pair hmin q ((mem_keys_getStats ids q).2 hq)
    · exact encodeChunk_step merges ids pair idx (by omega) hmin hget

/-- Witness for C4 at a concrete input. -/
theorem claim_C4_witness :
    (((∀ p ∈ adjPairs [104, 105], dictGet? [((104, 105), (256 : Int))] p = none) →
        encodeChunk [((104, 105), 256)] [104, 105] = [104, 105]) ∧
      ((∃ p ∈ adjPairs [104, 105], dictGet? [((104, 105), (256 : Int))] p ≠ none) →
        ∃ pair idx, pair ∈ adjPairs [104, 105] ∧
          dictGet? [((104, 105), (256 : Int))] pair = some idx ∧
          (∀ q ∈ adjPairs [104, 105],
            rkLt (dictGet? [((104, 105), (256 : Int))] q)
              (dictGet? [((104, 105), (256 : Int))] pair) = false) ∧
          encodeChunk [((104, 105), 256)] [104, 105] =
            encodeChunk [((104, 105), 256)] (mergeIds [104, 105] pair idx))) :=
  claim_C4_greedy_min_rank [((104, 105), 256)] [104, 105] (by decide)

/-! ## Claim C6: `encode(text, "none_raise")` -/

/-- `isPrefixC` agrees with `List.IsPrefix`. -/
theorem isPrefixC_iff : ∀ (tok s : Codes), isPrefixC tok s = true ↔ tok <+: s
  | [], s => by simp [isPrefixC, List.nil_prefix]
  | a :: as, [] => by simp [isPrefixC]
  | a :: as, b :: bs => by
    simp only [isPrefixC, Bool.and_eq_true, decide_eq_true_eq, List.cons_prefix_cons]
    rw [isPrefixC_iff as bs]

/-- The substring test `tok in text` agrees with `List.IsInfix`. -/
theorem strIn_iff : ∀ (text tok : Codes), strIn tok text = true ↔ tok <:+: text
  | [], tok => by
    rw [show strIn tok [] = isPrefixC tok [] from rfl, isPrefixC_iff]
    constructor
    · intro h; exact h.isInfix
    · intro h
      rw [List.sublist_nil.mp h.sublist]
  | c :: rest, tok => by
    simp only [strIn, Bool.or_eq_true]
    rw [isPrefixC_iff, strIn_iff rest tok, List.infix_cons_iff]

/-- C6: with any registered special tokens, `encode(text, "none_raise")`
fails with the `InvalidInput` assertion exactly when some registered
special-token string occurs as a substring of `text`; when none occurs it
returns `encode_ordinary(text)`. -/
theorem claim_C6_none_raise (findall : Codes → Codes → List Codes) (t : Tokenizer)
    (text : Codes) :
    (pyEncode findall t text .noneRaise = .error .specialInText ↔
      ∃ tok ∈ dictKeys t.special_tokens, tok <:+: text) ∧
    ((∀ tok ∈ dictKeys t.special_tokens, ¬ (tok <:+: text)) →
      pyEncode findall t text .noneRaise = .ok (encode_ordinary findall t text)) := by
  by_cases hall : (dictKeys t.special_tokens).all (fun tok => !(strIn tok text)) = true
  · have hok : pyEncode findall t text .noneRaise =
        .ok (encodeWithSpecial findall t [] text) := by
      simp only [pyEncode, if_pos hall]
    refine ⟨⟨fun herr => ?_, fun hex => ?_⟩, fun _ => ?_⟩
    · rw [hok] at herr; exact absurd herr (by simp)
    · obtain ⟨tok, htok, hin⟩ := hex
      have h1 := List.all_eq_true.1 hall tok htok
      rw [(strIn_iff text tok).2 hin] at h1
      simp at h1
    · rw [hok]; rfl
  · have herr2 : pyEncode findall t text .noneRaise = .error .specialInText := by
      simp only [pyEncode, if_neg hall]
    refine ⟨⟨fun _ => ?_, fun _ => herr2⟩, fun hnone => ?_⟩
    · by_contra hno
      push_neg at hno
      apply hall
      apply List.all_eq_true.2
      intro tok htok
      cases hs : strIn tok text with
      | false => simp [hs]
      | true => exact absurd ((strIn_iff text tok).1 hs) (hno tok htok)
    · exfalso
      apply hall
      apply List.all_eq_true.2
      intro tok htok
      cases hs : strIn tok text with
      | false => simp [hs]
      | true => exact absurd ((strIn_iff text tok).1 hs) (hnone tok htok)

/-- A concrete stand-in for the external regex engine, used to instantiate
theorems at concrete inputs: the whole text is one chunk (as e.g. for a
single word such as `"A"` or `"hi"` under the GPT-4 pattern). -/
def oneChunkSplit : Codes → Codes → List Codes :=
  fun _ text => if text = [] then [] else [text]

/-- Witness for C6 at a concrete input. -/
theorem claim_C6_witness :
    pyEncode oneChunkSplit
        (register_special_tokens (mkRegexTokenizer none) [([60, 101, 62], 999)])
        [104, 105] .noneRaise =
      .ok (encode_ordinary oneChunkSplit
        (register_special_tokens (mkRegexTokenizer none) [([60, 101, 62], 999)]) [104, 105]) :=
  (claim_C6_none_raise oneChunkSplit
    (register_special_tokens (mkRegexTokenizer none) [([60, 101, 62], 999)]) [104, 105]).2
    (by decide)

/-! ## Claim C2: byte-only fallback of a fresh tokenizer -/

/-- Lookup distributes over dict concatenation, first dict first. -/
theorem dictGet?_append {α β : Type} [DecidableEq α] (d1 d2 : PyDict α β) (a : α) :
    dictGet? (d1 ++ d2) a =
      (match dictGet? d1 a with
        | some v => some v
        | none => dictGet? d2 a) := by
  induction d1 with
  | nil => rfl
  | cons kv rest ih =>
    obtain ⟨k, v⟩ := kv
    by_cases hk : k = a
    · simp [dictGet?, hk]
    · simp only [List.cons_append, dictGet?, if_neg hk]
      exact ih

/-- Lookup fails exactly off the key set. -/
theorem dictGet?_eq_none {α β : Type} [DecidableEq α] (d : PyDict α β) (a : α) :
    dictGet? d a = none ↔ a ∉ dictKeys d := by
  induction d with
  | nil => simp [dictGet?, dictKeys]
  | cons kv rest ih =>
    obtain ⟨k, v⟩ := kv
    by_cases hk : k = a
    · simp [dictGet?, hk, dictKeys]
    · simp [dictGet?, hk, dictKeys, ih, Ne.symm hk]

/-- Byte-vocabulary lookup: byte `b < n` maps to the singleton byte string. -/
theorem dictGet?_rangeVocab (n b : Nat) (hb : b < n) :
    dictGet? ((List.range n).map (fun i => (Int.ofNat i, [i]))) (Int.ofNat b) = some [b] := by
  induction n with
  | zero => omega
  | succ m ih =>
    rw [List.range_succ, List.map_append]
    rw [dictGet?_append]
    by_cases hbm : b < m
    · rw [ih hbm]
    · have hbe : b = m := by omega
      subst hbe
      have hnone : dictGet? ((List.range b).map (fun i => (Int.ofNat i, [i])))
          (Int.ofNat b) = none := by
        rw [dictGet?_eq_none]
        intro hmem
        simp only [dictKeys, List.map_map, List.mem_map, Function.comp] at hmem
        obtain ⟨i, hi, hie⟩ := hmem
        rw [List.mem_range] at hi
        have : i = b := Int.ofNat.inj hie
        omega
      rw [hnone]
      simp [dictGet?]

/-- Byte-vocabulary lookup for `b < 256`. -/
theorem dictGet?_byteVocab (b : Nat) (hb : b < 256) :
    dictGet? byteVocab (Int.ofNat b) = some [b] :=
  dictGet?_rangeVocab 256 b hb

/-- With an empty merge table, `_encode_chunk` is the identity. -/
theorem encodeChunk_empty_merges (ids : List Int) : encodeChunk [] ids = ids :=
  encodeChunk_stop [] ids (fun _ _ => rfl)

/-- Concatenating the per-chunk byte encodings equals the byte encoding of
the concatenation. -/
theorem bytes_of_chunks (chunks : List Codes) :
    (chunks.map (fun ch => bytesToIds (utf8Encode ch))).flatten =
      bytesToIds (utf8Encode chunks.flatten) := by
  induction chunks with
  | nil => rfl
  | cons ch rest ih =>
    simp only [bytesToIds] at ih ⊢
    simp only [List.map_cons, List.flatten_cons, utf8Encode_append, List.map_append, ih]

/-- `encode_ordinary` of a fresh tokenizer returns one id per UTF-8 byte in
order, provided the pre-tokenizer covers the text. -/
theorem encode_ordinary_fresh (findall : Codes → Codes → List Codes) (s : Codes)
    (hcover : (findall gpt4Pattern s).flatten = s) :
    encode_ordinary findall (mkRegexTokenizer none) s = bytesToIds (utf8Encode s) := by
  show ((findall gpt4Pattern s).map
      (fun ch => encodeChunk [] (bytesToIds (utf8Encode ch)))).flatten = _
  calc ((findall gpt4Pattern s).map
        (fun ch => encodeChunk [] (bytesToIds (utf8Encode ch)))).flatten
      = ((findall gpt4Pattern s).map (fun ch => bytesToIds (utf8Encode ch))).flatten := by
        rw [List.map_congr_left (fun ch _ => encodeChunk_empty_merges _)]
    _ = bytesToIds (utf8Encode (findall gpt4Pattern s).flatten) := bytes_of_chunks _
    _ = bytesToIds (utf8Encode s) := by rw [hcover]

/-- Decoding a list of byte ids under the byte vocabulary returns exactly
those bytes. -/
theorem decodeBytes_bytes (bs : List Nat) (h : ∀ b ∈ bs, b < 256) :
    decodeBytes (mkRegexTokenizer none) (bytesToIds bs) = .ok bs := by
  induction bs with
  | nil => rfl
  | cons b rest ih =>
    have hb := h b (List.mem_cons_self b rest)
    have hget : dictGet? (mkRegexTokenizer none).vocab (Int.ofNat b) = some [b] :=
      dictGet?_byteVocab b hb
    simp only [bytesToIds, List.map_cons, decodeBytes, hget]
    have ih' := ih (fun x hx => h x (List.mem_cons_of_mem _ hx))
    simp only [bytesToIds] at ih'
    rw [ih']
    rfl

/-- C2: a freshly constructed, untrained tokenizer's
`encode(s, "none_raise")` returns exactly the UTF-8 bytes of `s`, one id
per byte in order, and `decode` of that output returns `s`; in particular
`decode([])` returns the empty string (and instantiating at `s = []`,
`encode("")` returns the empty sequence). -/
theorem claim_C2_byte_fallback (findall : Codes → Codes → List Codes) (s : Codes)
    (hs : ValidScalars s) (hcover : (findall gpt4Pattern s).flatten = s) :
    pyEncode findall (mkRegexTokenizer none) s .noneRaise =
      .ok (bytesToIds (utf8Encode s)) ∧
    decodeTok (mkRegexTokenizer none) (bytesToIds (utf8Encode s)) = .ok s ∧
    decodeTok (mkRegexTokenizer none) [] = .ok [] := by
  refine ⟨?_, ?_, rfl⟩
  · have h0 : pyEncode findall (mkRegexTokenizer none) s .noneRaise =
        .ok (encode_ordinary findall (mkRegexTokenizer none) s) := rfl
    rw [h0, encode_ordinary_fresh findall s hcover]
  · show (match decodeBytes (mkRegexTokenizer none) (bytesToIds (utf8Encode s)) with
      | .ok bs => (.ok (utf8DecodeReplace bs) : Except DecodeErr Codes)
      | .error e => .error e) = .ok s
    rw [decodeBytes_bytes (utf8Encode s) (utf8Encode_lt_256 s hs)]
    show Except.ok (utf8DecodeReplace (utf8Encode s)) = .ok s
    rw [utf8_roundtrip s hs]

/-- Witness for C2 at concrete inputs (the empty string and `"你"`). -/
theorem claim_C2_witness :
    pyEncode oneChunkSplit (mkRegexTokenizer none) [] .noneRaise = .ok [] ∧
    pyEncode oneChunkSplit (mkRegexTokenizer none) [0x4F60] .noneRaise =
      .ok [228, 189, 160] ∧
    decodeTok (mkRegexTokenizer none) [228, 189, 160] = .ok [0x4F60] ∧
    decodeTok (mkRegexTokenizer none) [] = .ok [] := by
  have h1 := claim_C2_byte_fallback oneChunkSplit [] (by decide) (by decide)
  have h2 := claim_C2_byte_fallback oneChunkSplit [0x4F60] (by decide) (by decide)
  exact ⟨h1.1, h2.1, h2.2.1, h1.2.2⟩

/-! ## Claim C3: behavior of `train` when no adjacent pair exists -/

/-- Chunks of length at most 1 contribute no pair counts. -/
theorem getStatsAcc_short (ch : List Int) (acc : PyDict (Int × Int) Nat)
    (h : ch.length ≤ 1) : getStatsAcc ch acc = acc := by
  cases ch with
  | nil => rfl
  | cons a t =>
    cases t with
    | nil => rfl
    | cons b t' => simp at h

/-- Over chunks of length at most 1, the global pair counter stays empty. -/
theorem statsFold_nil (ids : List (List Int)) (h : ∀ ch ∈ ids, ch.length ≤ 1) :
    ids.foldl (fun acc chunk => getStatsAcc chunk acc) ([] : PyDict (Int × Int) Nat) = [] := by
  have hgen : ∀ (l : List (List Int)) (acc : PyDict (Int × Int) Nat),
      (∀ ch ∈ l, ch.length ≤ 1) →
      l.foldl (fun acc chunk => getStatsAcc chunk acc) acc = acc := by
    intro l
    induction l with
    | nil => intro acc _; rfl
    | cons ch rest ih =>
      intro acc hl
      simp only [List.foldl_cons]
      rw [getStatsAcc_short ch acc (hl ch (List.mem_cons_self ch rest))]
      exact ih acc (fun x hx => hl x (List.mem_cons_of_mem _ hx))
  exact hgen ids [] h

/-- C3 counterexample: the claim "train terminates early and returns
normally" is false on the code — on a text whose only chunk is a single
character and `vocab_size = 257`, `train` raises
`ValueError: max() arg is an empty sequence`. -/
theorem claim_C3_counterexample :
    trainTok oneChunkSplit (mkRegexTokenizer none) [65] 257 = .error .emptyStats := by
  decide

/-- C3 amended: if at some iteration of the training loop no adjacent pair
exists in any chunk (all chunks have length ≤ 1) while merges remain to be
done, `train` fails with `ValueError` from `max()` on the empty counter —
it does not return normally; since `self.merges` and `self.vocab` are
assigned only after the loop, the instance keeps its previous values. -/
theorem claim_C3_amended_train_raises (fuel i : Nat) (ids : List (List Int))
    (merges : PyDict (Int × Int) Int) (vocab : PyDict Int (List Nat))
    (hfuel : 1 ≤ fuel) (hshort : ∀ ch ∈ ids, ch.length ≤ 1) :
    trainLoop fuel i ids merges vocab = .error .emptyStats := by
  cases fuel with
  | zero => omega
  | succ n =>
    show (match maxBySnd (ids.foldl (fun acc chunk => getStatsAcc chunk acc)
        ([] : PyDict (Int × Int) Nat)) with
      | none => (.error .emptyStats : Except TrainErr (PyDict (Int × Int) Int × PyDict Int (List Nat)))
      | some pair =>
        match dictGet? vocab pair.1, dictGet? vocab pair.2 with
        | some b0, some b1 =>
          trainLoop n (i + 1) (ids.map (fun chunk => mergeIds chunk pair (256 + i)))
            (dictInsert merges pair (256 + i)) (dictInsert vocab (256 + i) (b0 ++ b1))
        | _, _ => .error .keyError) = .error .emptyStats
    rw [statsFold_nil ids hshort]
    rfl

/-- Witness for the amended C3 at a concrete input. -/
theorem claim_C3_witness :
    trainLoop 1 0 [[65]] [] byteVocab = .error .emptyStats :=
  claim_C3_amended_train_raises 1 0 [[65]] [] byteVocab (by decide) (by decide)

/-! ## Claim C10: encoded ids lie in the vocabulary -/

/-- Presence of a key is the same as a successful lookup. -/
theorem dictGet?_isSome_iff_mem {α β : Type} [DecidableEq α] (d : PyDict α β) (a : α) :
    (dictGet? d a).isSome ↔ a ∈ dictKeys d := by
  cases hg : dictGet? d a with
  | none => simp [(dictGet?_eq_none d a).1 hg]
  | some v =>
    simp only [Option.isSome_some, true_iff]
    by_contra hmem
    rw [← dictGet?_eq_none d a] at hmem
    rw [hg] at hmem
    exact Option.noConfusion hmem

/-- A successful lookup yields a stored value. -/
theorem dictGet?_mem_values {α β : Type} [DecidableEq α] (d : PyDict α β) (a : α) (v : β)
    (h : dictGet? d a = some v) : v ∈ dictValues d := by
  induction d with
  | nil => simp [dictGet?] at h
  | cons kv rest ih =>
    obtain ⟨k, w⟩ := kv
    by_cases hk : k = a
    · simp only [dictGet?, if_pos hk, Option.some.injEq] at h
      simp [dictValues, h]
    · simp only [dictGet?, if_neg hk] at h
      simp only [dictValues, List.map_cons, List.mem_cons]
      exact Or.inr (ih h)

/-- Elements of a merged list come from the original list or are the new
id. -/
theorem mergeIds_mem : ∀ (l : List Int) (p : Int × Int) (i x : Int),
    x ∈ mergeIds l p i → x ∈ l ∨ x = i
  | [], _, _, _, h => Or.inl h
  | [_], _, _, _, h => Or.inl h
  | a :: b :: rest, p, i, x, h => by
    by_cases hm : a = p.1 ∧ b = p.2
    · rw [show mergeIds (a :: b :: rest) p i = i :: mergeIds rest p i by
        simp only [mergeIds]; rw [if_pos hm]] at h
      rcases List.mem_cons.1 h with h | h
      · exact Or.inr h
      · rcases mergeIds_mem rest p i x h with h | h
        · exact Or.inl (by simp [h])
        · exact Or.inr h
    · rw [show mergeIds (a :: b :: rest) p i = a :: mergeIds (b :: rest) p i by
        simp only [mergeIds]; rw [if_neg hm]] at h
      rcases List.mem_cons.1 h with h | h
      · exact Or.inl (by simp [h])
      · rcases mergeIds_mem (b :: rest) p i x h with h | h
        · exact Or.inl (by simp [List.mem_cons.1 h])
        · exact Or.inr h

/-- Every id produced by the `_encode_chunk` loop is one of the starting
ids or a value of the merge table. -/
theorem encodeChunkAux_mem (merges : PyDict (Int × Int) Int) :
    ∀ (fuel : Nat) (ids : List Int) (id : Int), id ∈ encodeChunkAux merges fuel ids →
      id ∈ ids ∨ id ∈ dictValues merges := by
  intro fuel
  induction fuel with
  | zero => intro ids id h; exact Or.inl h
  | succ n ih =>
    intro ids id h
    by_cases hlen : ids.length < 2
    · rw [show encodeChunkAux merges (n + 1) ids = ids by
        simp only [encodeChunkAux, if_pos hlen]] at h
      exact Or.inl h
    · cases hmin : minByRank merges (dictKeys (getStats ids)) with
      | none =>
        rw [encodeChunkAux_succ_noMin merges n ids hlen hmin] at h
        exact Or.inl h
      | some pair =>
        cases hget : dictGet? merges pair with
        | none =>
          rw [encodeChunkAux_succ_break merges n ids pair hlen hmin hget] at h
          exact Or.inl h
        | some idx =>
          rw [encodeChunkAux_succ_step merges n ids pair idx hlen hmin hget] at h
          rcases ih (mergeIds ids pair idx) id h with h | h
          · rcases mergeIds_mem ids pair idx id h with h | h
            · exact Or.inl h
            · exact Or.inr (h ▸ dictGet?_mem_values merges pair idx hget)
          · exact Or.inr h

/-- Keys accumulated by the merge loop of `_build_vocab` survive to the
result, and every merge value becomes a key. -/
theorem mergeVocabFold_keys :
    ∀ (merges : PyDict (Int × Int) Int) (acc v : PyDict Int (List Nat)),
      mergeVocabFold merges acc = .ok v →
      (∀ a ∈ dictKeys acc, a ∈ dictKeys v) ∧
      (∀ idx ∈ dictValues merges, idx ∈ dictKeys v)
  | [], acc, v, h => by
    simp only [mergeVocabFold, Except.ok.injEq] at h
    subst h
    exact ⟨fun a ha => ha, by simp [dictValues]⟩
  | ((p0, p1), idx) :: rest, acc, v, h => by
    simp only [mergeVocabFold] at h
    cases hg0 : dictGet? acc p0 with
    | none => rw [hg0] at h; exact absurd h (by simp)
    | some b0 =>
      cases hg1 : dictGet? acc p1 with
      | none => rw [hg0, hg1] at h; exact absurd h (by simp)
      | some b1 =>
        rw [hg0, hg1] at h
        obtain ⟨hacc, hvals⟩ := mergeVocabFold_keys rest (dictInsert acc idx (b0 ++ b1)) v h
        refine ⟨fun a ha => hacc a ((mem_dictKeys_insert acc idx (b0 ++ b1) a).2 (Or.inl ha)), ?_⟩
        intro j hj
        simp only [dictValues, List.map_cons, List.mem_cons] at hj
        rcases hj with hj | hj
        · exact hj ▸ hacc idx ((mem_dictKeys_insert acc idx (b0 ++ b1) idx).2 (Or.inr rfl))
        · exact hvals j hj

/-- Keys survive the special-token loop of `_build_vocab`. -/
theorem specialVocabFold_keys :
    ∀ (st : PyDict Codes Int) (acc v : PyDict Int (List Nat)),
      specialVocabFold st acc = .ok v → ∀ a ∈ dictKeys acc, a ∈ dictKeys v
  | [], acc, v, h => by
    simp only [specialVocabFold, Except.ok.injEq] at h
    subst h
    exact fun a ha => ha
  | (tok, idx) :: rest, acc, v, h => by
    simp only [specialVocabFold] at h
    by_cases hc : (dictGet? acc idx).isSome
    · rw [if_pos hc] at h; exact absurd h (by simp)
    · rw [if_neg hc] at h
      intro a ha
      exact specialVocabFold_keys rest (dictInsert acc idx (utf8Encode tok)) v h a
        ((mem_dictKeys_insert acc idx (utf8Encode tok) a).2 (Or.inl ha))

/-- When `_build_vocab` succeeds, every byte id and every merge value is a
key of the result. -/
theorem build_vocab_keys (merges : PyDict (Int × Int) Int) (st : PyDict Codes Int)
    (v : PyDict Int (List Nat)) (h : build_vocab merges st = .ok v) :
    (∀ b : Nat, b < 256 → Int.ofNat b ∈ dictKeys v) ∧
    (∀ idx ∈ dictValues merges, idx ∈ dictKeys v) := by
  simp only [build_vocab] at h
  cases hm : mergeVocabFold merges byteVocab with
  | error e => rw [hm] at h; exact absurd h (by simp)
  | ok v1 =>
    rw [hm] at h
    obtain ⟨hacc, hvals⟩ := mergeVocabFold_keys merges byteVocab v1 hm
    have hsp := specialVocabFold_keys st v1 v h
    refine ⟨fun b hb => ?_, fun idx hidx => hsp idx (hvals idx hidx)⟩
    apply hsp
    apply hacc
    rw [← dictGet?_isSome_iff_mem]
    rw [dictGet?_byteVocab b hb]
    rfl

/-- `decode` succeeds on any id list whose ids are all vocabulary keys. -/
theorem decodeBytes_isOk (t : Tokenizer) (ids : List Int)
    (h : ∀ id ∈ ids, (dictGet? t.vocab id).isSome) :
    ∃ bs, decodeBytes t ids = .ok bs := by
  induction ids with
  | nil => exact ⟨[], rfl⟩
  | cons id rest ih =>
    obtain ⟨b, hb⟩ := Option.isSome_iff_exists.1 (h id (List.mem_cons_self id rest))
    obtain ⟨bs, hbs⟩ := ih (fun x hx => h x (List.mem_cons_of_mem _ hx))
    exact ⟨b ++ bs, by simp only [decodeBytes, hb, hbs]⟩

/-- C10: for a tokenizer whose vocabulary was produced by `_build_vocab`
from its merges (as after construction, train, or load), every id produced
by `encode_ordinary` is a byte id below 256 or a value of the merge table,
hence a key of the vocabulary; therefore `decode` applied to any output of
`encode_ordinary` never fails with the unknown-id error. -/
theorem claim_C10_encode_ids_in_vocab (findall : Codes → Codes → List Codes)
    (t : Tokenizer) (st : PyDict Codes Int) (text : Codes)
    (hv : build_vocab t.merges st = .ok t.vocab)
    (hch : ∀ ch ∈ findall t.compiled_pattern text, ValidScalars ch) :
    (∀ id ∈ encode_ordinary findall t text,
      (∃ b : Nat, b < 256 ∧ id = Int.ofNat b) ∨ id ∈ dictValues t.merges) ∧
    (∀ id ∈ encode_ordinary findall t text, (dictGet? t.vocab id).isSome) ∧
    (decodeTok t (encode_ordinary findall t text)).isOk := by
  obtain ⟨hbytes, hvals⟩ := build_vocab_keys t.merges st t.vocab hv
  have hmain : ∀ id ∈ encode_ordinary findall t text,
      (∃ b : Nat, b < 256 ∧ id = Int.ofNat b) ∨ id ∈ dictValues t.merges := by
    intro id hid
    rw [show encode_ordinary findall t text = ((findall t.compiled_pattern text).map
      (fun ch => encodeChunk t.merges (bytesToIds (utf8Encode ch)))).flatten from rfl] at hid
    rw [List.mem_flatten] at hid
    obtain ⟨l, hl, hidl⟩ := hid
    rw [List.mem_map] at hl
    obtain ⟨ch, hch2, hle⟩ := hl
    rw [← hle] at hidl
    rcases encodeChunkAux_mem t.merges _ _ id hidl with hmem | hmem
    · simp only [bytesToIds, List.mem_map] at hmem
      obtain ⟨b, hb, hbe⟩ := hmem
      exact Or.inl ⟨b, utf8Encode_lt_256 ch (hch ch hch2) b hb, hbe.symm⟩
    · exact Or.inr hmem
  have hkeys : ∀ id ∈ encode_ordinary findall t text, (dictGet? t.vocab id).isSome := by
    intro id hid
    rw [dictGet?_isSome_iff_mem]
    rcases hmain id hid with ⟨b, hb, he⟩ | hval
    · exact he ▸ hbytes b hb
    · exact hvals id hval
  refine ⟨hmain, hkeys, ?_⟩
  obtain ⟨bs, hbs⟩ := decodeBytes_isOk t _ hkeys
  simp only [decodeTok, hbs, Except.isOk, Except.toBool]

/-- Witness for C10 at a concrete input. -/
theorem claim_C10_witness :
    (∀ id ∈ encode_ordinary oneChunkSplit (mkRegexTokenizer none) [104, 105],
      (∃ b : Nat, b < 256 ∧ id = Int.ofNat b) ∨
        id ∈ dictValues (mkRegexTokenizer none).merges) ∧
    (∀ id ∈ encode_ordinary oneChunkSplit (mkRegexTokenizer none) [104, 105],
      (dictGet? (mkRegexTokenizer none).vocab id).isSome) ∧
    (decodeTok (mkRegexTokenizer none)
      (encode_ordinary oneChunkSplit (mkRegexTokenizer none) [104, 105])).isOk :=
  claim_C10_encode_ids_in_vocab oneChunkSplit (mkRegexTokenizer none) [] [104, 105]
    (by decide) (by decide)

/-! ## Claim C7: the vocabulary invariant after `train` and after `load` -/

/-- Lookup of the inserted key. -/
theorem dictGet?_insert_self {α β : Type} [DecidableEq α] (d : PyDict α β) (k : α) (v : β) :
    dictGet? (dictInsert d k v) k = some v := by
  induction d with
  | nil => simp [dictInsert, dictGet?]
  | cons kv rest ih =>
    obtain ⟨k', w⟩ := kv
    by_cases hk : k' = k
    · simp [dictInsert, hk, dictGet?]
    · simp only [dictInsert, if_neg hk, dictGet?, if_neg hk]
      exact ih

/-- Lookup of any other key is unchanged by an insertion. -/
theorem dictGet?_insert_ne {α β : Type} [DecidableEq α] (d : PyDict α β) (k : α) (v : β)
    (a : α) (h : a ≠ k) : dictGet? (dictInsert d k v) a = dictGet? d a := by
  induction d with
  | nil =>
    simp only [dictInsert, dictGet?]
    rw [if_neg (fun he => h he.symm)]
  | cons kv rest ih =>
    obtain ⟨k', w⟩ := kv
    by_cases hk : k' = k
    · subst hk
      simp only [dictInsert, if_pos rfl, dictGet?]
      rw [if_neg (fun he => h he.symm), if_neg (fun he => h he.symm)]
    · simp only [dictInsert, if_neg hk, dictGet?]
      by_cases ha : k' = a
      · rw [if_pos ha, if_pos ha]
      · rw [if_neg ha, if_neg ha]
        exact ih

/-- Values after insertion come from the old dict or are the new value. -/
theorem mem_dictValues_insert {α β : Type} [DecidableEq α] (d : PyDict α β) (k : α) (v : β)
    (j : β) (h : j ∈ dictValues (dictInsert d k v)) : j ∈ dictValues d ∨ j = v := by
  induction d with
  | nil => simp [dictInsert, dictValues] at h; exact Or.inr h
  | cons kv rest ih =>
    obtain ⟨k', w⟩ := kv
    by_cases hk : k' = k
    · simp only [dictInsert, if_pos hk, dictValues, List.map_cons, List.mem_cons] at h
      rcases h with h | h
      · exact Or.inr h
      · exact Or.inl (by simp [dictValues, h])
    · simp only [dictInsert, if_neg hk, dictValues, List.map_cons, List.mem_cons] at h
      rcases h with h | h
      · exact Or.inl (by simp [dictValues, h])
      · rcases ih h with h | h
        · exact Or.inl (by simp only [dictValues, List.map_cons, List.mem_cons]; exact Or.inr h)
        · exact Or.inr h

/-- Inserting a fresh value keeps the values duplicate-free. -/
theorem dictValues_insert_nodup {α β : Type} [DecidableEq α] (d : PyDict α β) (k : α) (v : β)
    (hnd : (dictValues d).Nodup) (hv : v ∉ dictValues d) :
    (dictValues (dictInsert d k v)).Nodup := by
  induction d with
  | nil => simp [dictInsert, dictValues]
  | cons kv rest ih =>
    obtain ⟨k', w⟩ := kv
    simp only [dictValues, List.map_cons, List.nodup_cons] at hnd
    simp only [dictValues, List.map_cons, List.mem_cons] at hv
    push_neg at hv
    by_cases hk : k' = k
    · simp only [dictInsert, if_pos hk, dictValues, List.map_cons, List.nodup_cons]
      exact ⟨hv.2, hnd.2⟩
    · simp only [dictInsert, if_neg hk, dictValues, List.map_cons, List.nodup_cons]
      refine ⟨?_, ih hnd.2 hv.2⟩
      intro hmem
      rcases mem_dictValues_insert rest k v w hmem with hmem | hmem
      · exact hnd.1 hmem
      · exact hv.1 hmem.symm

/-- Inserting a fresh key appends the entry. -/
theorem dictInsert_of_not_mem {α β : Type} [DecidableEq α] (d : PyDict α β) (k : α) (v : β)
    (h : k ∉ dictKeys d) : dictInsert d k v = d ++ [(k, v)] := by
  induction d with
  | nil => rfl
  | cons kv rest ih =>
    obtain ⟨k', w⟩ := kv
    simp only [dictKeys, List.map_cons, List.mem_cons] at h
    push_neg at h
    simp only [dictInsert, List.cons_append]
    rw [if_neg (fun he => h.1 he.symm), ih h.2]

/-- The merge fold of `_build_vocab` splits over list append. -/
theorem mergeVocabFold_append :
    ∀ (l1 l2 : PyDict (Int × Int) Int) (acc v : PyDict Int (List Nat)),
      mergeVocabFold (l1 ++ l2) acc = .ok v →
      ∃ v1, mergeVocabFold l1 acc = .ok v1 ∧ mergeVocabFold l2 v1 = .ok v
  | [], l2, acc, v, h => ⟨acc, rfl, h⟩
  | ((p0, p1), idx) :: rest, l2, acc, v, h => by
    simp only [List.cons_append, mergeVocabFold] at h ⊢
    cases hg0 : dictGet? acc p0 with
    | none => rw [hg0] at h; exact absurd h (by simp)
    | some b0 =>
      cases hg1 : dictGet? acc p1 with
      | none => rw [hg0, hg1] at h; exact absurd h (by simp)
      | some b1 =>
        rw [hg0, hg1] at h
        exact mergeVocabFold_append rest l2 (dictInsert acc idx (b0 ++ b1)) v h

/-- A key whose value never recurs among the remaining merge values keeps
its binding through the merge fold. -/
theorem mergeVocabFold_stable :
    ∀ (ms : PyDict (Int × Int) Int) (acc v : PyDict Int (List Nat)),
      mergeVocabFold ms acc = .ok v →
      ∀ a : Int, (∀ j ∈ dictValues ms, a ≠ j) → dictGet? v a = dictGet? acc a
  | [], acc, v, h, a, _ => by
    simp only [mergeVocabFold, Except.ok.injEq] at h
    rw [h]
  | ((p0, p1), idx) :: rest, acc, v, h, a, hne => by
    simp only [mergeVocabFold] at h
    cases hg0 : dictGet? acc p0 with
    | none => rw [hg0] at h; exact absurd h (by simp)
    | some b0 =>
      cases hg1 : dictGet? acc p1 with
      | none => rw [hg0, hg1] at h; exact absurd h (by simp)
      | some b1 =>
        rw [hg0, hg1] at h
        have ha : a ≠ idx := hne idx (by simp [dictValues])
        rw [mergeVocabFold_stable rest (dictInsert acc idx (b0 ++ b1)) v h a
          (fun j hj => hne j
            (by simp only [dictValues, List.map_cons, List.mem_cons]; exact Or.inr hj))]
        exact dictGet?_insert_ne acc idx (b0 ++ b1) a ha

/-- Keys of the merge-fold result come from the accumulator or the merge
values. -/
theorem mergeVocabFold_keys_subset :
    ∀ (ms : PyDict (Int × Int) Int) (acc v : PyDict Int (List Nat)),
      mergeVocabFold ms acc = .ok v →
      ∀ a ∈ dictKeys v, a ∈ dictKeys acc ∨ a ∈ dictValues ms
  | [], acc, v, h, a, ha => by
    simp only [mergeVocabFold, Except.ok.injEq] at h
    exact Or.inl (h ▸ ha)
  | ((p0, p1), idx) :: rest, acc, v, h, a, ha => by
    simp only [mergeVocabFold] at h
    cases hg0 : dictGet? acc p0 with
    | none => rw [hg0] at h; exact absurd h (by simp)
    | some b0 =>
      cases hg1 : dictGet? acc p1 with
      | none => rw [hg0, hg1] at h; exact absurd h (by simp)
      | some b1 =>
        rw [hg0, hg1] at h
        rcases mergeVocabFold_keys_subset rest (dictInsert acc idx (b0 ++ b1)) v h a ha
          with hmem | hmem
        · rcases (mem_dictKeys_insert acc idx (b0 ++ b1) a).1 hmem with hmem | hmem
          · exact Or.inl hmem
          · exact Or.inr (by simp [dictValues, hmem])
        · exact Or.inr
            (by simp only [dictValues, List.map_cons, List.mem_cons]; exact Or.inr hmem)

/-- The keys of the byte vocabulary are exactly the byte ids. -/
theorem byteVocab_keys (a : Int) (h : a ∈ dictKeys byteVocab) :
    ∃ b : Nat, b < 256 ∧ a = Int.ofNat b := by
  simp only [byteVocab, dictKeys, List.map_map, List.mem_map, Function.comp_apply] at h
  obtain ⟨i, hi, hie⟩ := h
  rw [List.mem_range] at hi
  exact ⟨i, hi, hie.symm⟩

/-- The vocabulary invariant of the spec: every byte id maps to its single
byte, and each recorded merge `(p0, p1) → idx`, taken in insertion order,
has both parents already present in the vocabulary built from the earlier
merges, with the final vocabulary mapping `p0` and `p1` to those byte
strings and `idx` to their concatenation. -/
def VocabMergeInv (merges : PyDict (Int × Int) Int) (vocab : PyDict Int (List Nat)) : Prop :=
  (∀ b : Nat, b < 256 → dictGet? vocab (Int.ofNat b) = some [b]) ∧
  ∀ k, ∀ hk : k < merges.length,
    ∃ vk b0 b1,
      mergeVocabFold (merges.take k) byteVocab = .ok vk ∧
      dictGet? vk (merges.get ⟨k, hk⟩).1.1 = some b0 ∧
      dictGet? vk (merges.get ⟨k, hk⟩).1.2 = some b1 ∧
      dictGet? vocab (merges.get ⟨k, hk⟩).1.1 = some b0 ∧
      dictGet? vocab (merges.get ⟨k, hk⟩).1.2 = some b1 ∧
      dictGet? vocab (merges.get ⟨k, hk⟩).2 = some (b0 ++ b1)

/-- The invariant holds for the result of the merge fold whenever the merge
values are all at least 256 and pairwise distinct. -/
theorem mergeVocab_invariant (merges : PyDict (Int × Int) Int) (v : PyDict Int (List Nat))
    (hok : mergeVocabFold merges byteVocab = .ok v)
    (hge : ∀ j ∈ dictValues merges, 256 ≤ j)
    (hnd : (dictValues merges).Nodup) :
    VocabMergeInv merges v := by
  have hbyteKey_lt : ∀ a ∈ dictKeys byteVocab, a < 256 := by
    intro a ha
    obtain ⟨b, hb, he⟩ := byteVocab_keys a ha
    subst he
    rw [Int.ofNat_eq_coe]
    omega
  constructor
  · intro b hb
    rw [mergeVocabFold_stable merges byteVocab v hok (Int.ofNat b)
      (fun j hj => by have := hge j hj; rw [Int.ofNat_eq_coe]; omega)]
    exact dictGet?_byteVocab b hb
  · intro k hk
    have hsplit : merges = merges.take k ++ merges.get ⟨k, hk⟩ :: merges.drop (k + 1) := by
      conv_lhs => rw [← List.take_append_drop k merges]
      rw [List.drop_eq_getElem_cons hk, List.get_eq_getElem]
    have hvalsplit : dictValues merges =
        dictValues (merges.take k) ++ (merges.get ⟨k, hk⟩).2 ::
          dictValues (merges.drop (k + 1)) := by
      conv_lhs => rw [hsplit]
      rw [show dictValues (merges.take k ++ merges.get ⟨k, hk⟩ :: merges.drop (k + 1)) =
        dictValues (merges.take k) ++
          dictValues (merges.get ⟨k, hk⟩ :: merges.drop (k + 1)) from List.map_append _ _ _]
      rfl
    -- distinctness facts
    have hndsplit := hvalsplit ▸ hnd
    have hidx_notin_drop : (merges.get ⟨k, hk⟩).2 ∉ dictValues (merges.drop (k + 1)) := by
      have := (List.Nodup.of_append_right hndsplit)
      exact (List.nodup_cons.1 this).1
    have hdisj := List.disjoint_of_nodup_append hndsplit
    have hidx_notin_take : (merges.get ⟨k, hk⟩).2 ∉ dictValues (merges.take k) := by
      intro hmem
      exact hdisj hmem (List.mem_cons_self _ _)
    have htake_sub : ∀ j ∈ dictValues (merges.take k), j ∈ dictValues merges := by
      intro j hj
      rw [hvalsplit]
      exact List.mem_append.2 (Or.inl hj)
    have hdrop_sub : ∀ j ∈ dictValues (merges.drop (k + 1)), j ∈ dictValues merges := by
      intro j hj
      rw [hvalsplit]
      exact List.mem_append.2 (Or.inr (List.mem_cons_of_mem _ hj))
    -- run the fold up to position k, one step, and the rest
    rw [hsplit] at hok
    obtain ⟨vk, hvk, hstep⟩ := mergeVocabFold_append _ _ _ _ hok
    refine ⟨vk, ?_⟩
    simp only [mergeVocabFold] at hstep
    cases hg0 : dictGet? vk (merges.get ⟨k, hk⟩).1.1 with
    | none => rw [hg0] at hstep; exact absurd hstep (by simp)
    | some b0 =>
      cases hg1 : dictGet? vk (merges.get ⟨k, hk⟩).1.2 with
      | none => rw [hg0, hg1] at hstep; exact absurd hstep (by simp)
      | some b1 =>
        rw [hg0, hg1] at hstep
        refine ⟨b0, b1, hvk, rfl, rfl, ?_, ?_, ?_⟩
        -- keys of vk are below every remaining merge value
        · have hp0keys : (merges.get ⟨k, hk⟩).1.1 ∈ dictKeys vk := by
            rw [← dictGet?_isSome_iff_mem, hg0]; rfl
          have hp0ne : ∀ j ∈ dictValues (merges.get ⟨k, hk⟩ :: merges.drop (k + 1)),
              (merges.get ⟨k, hk⟩).1.1 ≠ j := by
            intro j hj
            rcases mergeVocabFold_keys_subset _ _ _ hvk _ hp0keys with hbk | htk
            · have hlt := hbyteKey_lt _ hbk
              have hge2 : 256 ≤ j := hge j (by
                rw [hvalsplit]
                simp only [dictValues, List.map_cons, List.mem_cons, List.mem_append] at hj ⊢
                tauto)
              omega
            · intro he
              simp only [dictValues, List.map_cons, List.mem_cons] at hj
              rcases hj with hj | hj
              · exact hidx_notin_take (by rw [← he] at hj; rw [hj] at htk; exact htk)
              · exact hdisj htk (by rw [he]; exact List.mem_cons_of_mem _ hj)
          calc dictGet? v (merges.get ⟨k, hk⟩).1.1
              = dictGet? (dictInsert vk (merges.get ⟨k, hk⟩).2 (b0 ++ b1))
                  (merges.get ⟨k, hk⟩).1.1 := by
                refine mergeVocabFold_stable _ _ _ hstep _ ?_
                intro j hj
                exact hp0ne j (by
                  simp only [dictValues, List.map_cons, List.mem_cons]
                  exact Or.inr hj)
            _ = dictGet? vk (merges.get ⟨k, hk⟩).1.1 := by
                refine dictGet?_insert_ne _ _ _ _ ?_
                exact hp0ne _ (List.mem_cons_self _ _)
            _ = some b0 := hg0
        · have hp1keys : (merges.get ⟨k, hk⟩).1.2 ∈ dictKeys vk := by
            rw [← dictGet?_isSome_iff_mem, hg1]; rfl
          have hp1ne : ∀ j ∈ dictValues (merges.get ⟨k, hk⟩ :: merges.drop (k + 1)),
              (merges.get ⟨k, hk⟩).1.2 ≠ j := by
            intro j hj
            rcases mergeVocabFold_keys_subset _ _ _ hvk _ hp1keys with hbk | htk
            · have hlt := hbyteKey_lt _ hbk
              have hge2 : 256 ≤ j := hge j (by
                rw [hvalsplit]
                simp only [dictValues, List.map_cons, List.mem_cons, List.mem_append] at hj ⊢
                tauto)
              omega
            · intro he
              simp only [dictValues, List.map_cons, List.mem_cons] at hj
              rcases hj with hj | hj
              · exact hidx_notin_take (by rw [← he] at hj; rw [hj] at htk; exact htk)
              · exact hdisj htk (by rw [he]; exact List.mem_cons_of_mem _ hj)
          calc dictGet? v (merges.get ⟨k, hk⟩).1.2
              = dictGet? (dictInsert vk (merges.get ⟨k, hk⟩).2 (b0 ++ b1))
                  (merges.get ⟨k, hk⟩).1.2 := by
                refine mergeVocabFold_stable _ _ _ hstep _ ?_
                intro j hj
                exact hp1ne j (by
                  simp only [dictValues, List.map_cons, List.mem_cons]
                  exact Or.inr hj)
            _ = dictGet? vk (merges.get ⟨k, hk⟩).1.2 := by
                refine dictGet?_insert_ne _ _ _ _ ?_
                exact hp1ne _ (List.mem_cons_self _ _)
            _ = some b1 := hg1
        · calc dictGet? v (merges.get ⟨k, hk⟩).2
              = dictGet? (dictInsert vk (merges.get ⟨k, hk⟩).2 (b0 ++ b1))
                  (merges.get ⟨k, hk⟩).2 := by
                refine mergeVocabFold_stable _ _ _ hstep _ ?_
                intro j hj hje
                exact hidx_notin_drop (hje ▸ hj)
            _ = some (b0 ++ b1) := dictGet?_insert_self _ _ _

/-- The special-token loop of `_build_vocab` only adds fresh keys, so every
existing binding is preserved. -/
theorem specialVocabFold_stable :
    ∀ (st : PyDict Codes Int) (acc v : PyDict Int (List Nat)),
      specialVocabFold st acc = .ok v →
      ∀ a ∈ dictKeys acc, dictGet? v a = dictGet? acc a
  | [], acc, v, h, a, _ => by
    simp only [specialVocabFold, Except.ok.injEq] at h
    rw [h]
  | (tok, idx) :: rest, acc, v, h, a, ha => by
    simp only [specialVocabFold] at h
    by_cases hc : (dictGet? acc idx).isSome
    · rw [if_pos hc] at h; exact absurd h (by simp)
    · rw [if_neg hc] at h
      have hne : a ≠ idx := by
        intro he
        rw [he, ← dictGet?_isSome_iff_mem] at ha
        exact hc ha
      rw [specialVocabFold_stable rest (dictInsert acc idx (utf8Encode tok)) v h a
        ((mem_dictKeys_insert acc idx (utf8Encode tok) a).2 (Or.inl ha))]
      exact dictGet?_insert_ne acc idx (utf8Encode tok) a hne

/-- The vocabulary invariant survives the special-token loop of
`_build_vocab`. -/
theorem VocabMergeInv_special (merges : PyDict (Int × Int) Int)
    (v1 v : PyDict Int (List Nat)) (st : PyDict Codes Int)
    (hinv : VocabMergeInv merges v1) (hs : specialVocabFold st v1 = .ok v) :
    VocabMergeInv merges v := by
  obtain ⟨hbyte, hmerge⟩ := hinv
  have hstable : ∀ (a : Int) (bs : List Nat), dictGet? v1 a = some bs →
      dictGet? v a = some bs := by
    intro a bs hget
    rw [specialVocabFold_stable st v1 v hs a
      (by rw [← dictGet?_isSome_iff_mem, hget]; rfl)]
    exact hget
  refine ⟨fun b hb => hstable _ _ (hbyte b hb), fun k hk => ?_⟩
  obtain ⟨vk, b0, b1, hvk, hg0, hg1, hf0, hf1, hfi⟩ := hmerge k hk
  exact ⟨vk, b0, b1, hvk, hg0, hg1, hstable _ _ hf0, hstable _ _ hf1, hstable _ _ hfi⟩

/-- Both components of an adjacent pair are elements of the list. -/
theorem adjPairs_mem_both (l : List Int) (q : Int × Int) (h : q ∈ adjPairs l) :
    q.1 ∈ l ∧ q.2 ∈ l := by
  obtain ⟨q0, q1⟩ := q
  have h2 := List.of_mem_zip h
  exact ⟨h2.1, List.mem_of_mem_tail h2.2⟩

/-- Adjacent pairs survive prepending an element. -/
theorem mem_adjPairs_cons_of (x : Int) (l : List Int) (q : Int × Int)
    (h : q ∈ adjPairs l) : q ∈ adjPairs (x :: l) := by
  cases l with
  | nil => simp [adjPairs_nil] at h
  | cons y rest =>
    rw [adjPairs_cons_cons]
    exact List.mem_cons_of_mem _ h

/-- Adjacent pairs after a merge: either an adjacent pair of the original
list other than the merged pair, or a pair involving the fresh id. -/
theorem mergeIds_adjPairs (p0 p1 idx : Int) (h0 : idx ≠ p0) (h1 : idx ≠ p1) :
    ∀ l : List Int, ∀ q ∈ adjPairs (mergeIds l (p0, p1) idx),
      (q ∈ adjPairs l ∧ q ≠ (p0, p1)) ∨ q.1 = idx ∨ q.2 = idx
  | [], q, hq => by simp [mergeIds, adjPairs_nil] at hq
  | [a], q, hq => by
    rw [show mergeIds [a] (p0, p1) idx = [a] from rfl] at hq
    simp [adjPairs_single] at hq
  | a :: b :: rest, q, hq => by
    by_cases hm : a = p0 ∧ b = p1
    · rw [show mergeIds (a :: b :: rest) (p0, p1) idx = idx :: mergeIds rest (p0, p1) idx by
        simp only [mergeIds]; rw [if_pos ⟨hm.1, hm.2⟩]] at hq
      cases hM : mergeIds rest (p0, p1) idx with
      | nil => rw [hM] at hq; simp [adjPairs_single] at hq
      | cons x tl =>
        rw [hM, adjPairs_cons_cons] at hq
        rcases List.mem_cons.1 hq with hq | hq
        · exact Or.inr (Or.inl (by rw [hq]))
        · rw [← hM] at hq
          rcases mergeIds_adjPairs p0 p1 idx h0 h1 rest q hq with ⟨hmem, hne⟩ | hio
          · exact Or.inl ⟨mem_adjPairs_cons_of a _ q (mem_adjPairs_cons_of b _ q hmem), hne⟩
          · exact Or.inr hio
    · rw [show mergeIds (a :: b :: rest) (p0, p1) idx = a :: mergeIds (b :: rest) (p0, p1) idx by
        simp only [mergeIds]; rw [if_neg hm]] at hq
      obtain ⟨tl, hsh | hsh⟩ := mergeIds_head b rest (p0, p1) idx
      · rw [hsh, adjPairs_cons_cons] at hq
        rcases List.mem_cons.1 hq with hq | hq
        · exact Or.inr (Or.inr (by rw [hq]))
        · rw [← hsh] at hq
          rcases mergeIds_adjPairs p0 p1 idx h0 h1 (b :: rest) q hq with ⟨hmem, hne⟩ | hio
          · exact Or.inl ⟨mem_adjPairs_cons_of a _ q hmem, hne⟩
          · exact Or.inr hio
      · rw [hsh, adjPairs_cons_cons] at hq
        rcases List.mem_cons.1 hq with hq | hq
        · refine Or.inl ⟨by rw [hq, adjPairs_cons_cons]; exact List.mem_cons_self _ _, ?_⟩
          rw [hq]
          intro he
          rw [Prod.mk.injEq] at he
          exact hm he
        · rw [← hsh] at hq
          rcases mergeIds_adjPairs p0 p1 idx h0 h1 (b :: rest) q hq with ⟨hmem, hne⟩ | hio
          · exact Or.inl ⟨mem_adjPairs_cons_of a _ q hmem, hne⟩
          · exact Or.inr hio

/-- The winning pair of `max(stats, key=stats.get)` is a key of `stats`. -/
theorem maxBySnd_mem {α : Type} (d : PyDict α Nat) (p : α)
    (h : maxBySnd d = some p) : p ∈ dictKeys d := by
  cases d with
  | nil => simp [maxBySnd] at h
  | cons kv rest =>
    obtain ⟨k, v⟩ := kv
    simp only [maxBySnd, Option.some.injEq] at h
    have hmem := foldl_choice (fun best kv => if best.2 < kv.2 then kv else best)
      (fun a b => by dsimp only; split <;> [right; left] <;> rfl) rest (k, v)
    rw [← h]
    simp only [dictKeys, List.map_cons]
    rcases List.mem_cons.1 hmem with hmem | hmem
    · rw [hmem]; exact List.mem_cons_self _ _
    · exact List.mem_cons_of_mem _ (List.mem_map_of_mem Prod.fst hmem)

/-- Keys of the global pair counter built over all chunks. -/
theorem mem_keys_statsFold :
    ∀ (ids : List (List Int)) (acc : PyDict (Int × Int) Nat) (p : Int × Int),
      p ∈ dictKeys (ids.foldl (fun a ch => getStatsAcc ch a) acc) ↔
        p ∈ dictKeys acc ∨ ∃ ch ∈ ids, p ∈ adjPairs ch
  | [], acc, p => by simp
  | ch :: rest, acc, p => by
    simp only [List.foldl_cons]
    rw [mem_keys_statsFold rest (getStatsAcc ch acc) p]
    rw [getStatsAcc_eq, mem_dictKeys_foldl_insert]
    simp only [List.mem_cons]
    constructor
    · rintro ((h | h) | ⟨c, hc, hp⟩)
      · exact Or.inl h
      · exact Or.inr ⟨ch, Or.inl rfl, h⟩
      · exact Or.inr ⟨c, Or.inr hc, hp⟩
    · rintro (h | ⟨c, (hc | hc), hp⟩)
      · exact Or.inl (Or.inl h)
      · exact Or.inl (Or.inr (hc ▸ hp))
      · exact Or.inr ⟨c, hc, hp⟩

/-- Composing the merge fold over an append, forward direction. -/
theorem mergeVocabFold_append2 :
    ∀ (l1 l2 : PyDict (Int × Int) Int) (acc v1 : PyDict Int (List Nat)),
      mergeVocabFold l1 acc = .ok v1 →
      mergeVocabFold (l1 ++ l2) acc = mergeVocabFold l2 v1
  | [], l2, acc, v1, h => by
    simp only [mergeVocabFold, Except.ok.injEq] at h
    rw [List.nil_append, h]
  | ((p0, p1), idx) :: rest, l2, acc, v1, h => by
    simp only [List.cons_append, mergeVocabFold] at h ⊢
    split at h
    · rename_i b0 b1 heq0 heq1
      exact mergeVocabFold_append2 rest l2 (dictInsert acc idx (b0 ++ b1)) v1 h
    · exact absurd h (by simp)

theorem dictKeys_append {α β : Type} (d1 d2 : PyDict α β) :
    dictKeys (d1 ++ d2) = dictKeys d1 ++ dictKeys d2 := List.map_append _ _ _

theorem dictValues_append {α β : Type} (d1 d2 : PyDict α β) :
    dictValues (d1 ++ d2) = dictValues d1 ++ dictValues d2 := List.map_append _ _ _

/-- Invariant of the training loop: on success, the final vocabulary is the
`_build_vocab` merge fold of the final merges, whose values are ≥ 256 and
pairwise distinct. -/
theorem trainLoop_inv :
    ∀ (fuel i : Nat) (ids : List (List Int)) (merges : PyDict (Int × Int) Int)
      (vocab : PyDict Int (List Nat)) (res : PyDict (Int × Int) Int × PyDict Int (List Nat)),
      trainLoop fuel i ids merges vocab = .ok res →
      mergeVocabFold merges byteVocab = .ok vocab →
      (∀ j ∈ dictValues merges, 256 ≤ j ∧ j < 256 + (i : Int)) →
      (dictValues merges).Nodup →
      (∀ ch ∈ ids, ∀ x ∈ ch, x < 256 + (i : Int)) →
      (∀ q ∈ dictKeys merges, q.1 < 256 + (i : Int) ∧ q.2 < 256 + (i : Int)) →
      (∀ ch ∈ ids, ∀ q ∈ adjPairs ch, q ∉ dictKeys merges) →
      mergeVocabFold res.1 byteVocab = .ok res.2 ∧
      (∀ j ∈ dictValues res.1, 256 ≤ j) ∧ (dictValues res.1).Nodup := by
  intro fuel
  induction fuel with
  | zero =>
    intro i ids merges vocab res h hA hB hC _ _ _
    simp only [trainLoop, Except.ok.injEq] at h
    subst h
    exact ⟨hA, fun j hj => (hB j hj).1, hC⟩
  | succ n ih =>
    intro i ids merges vocab res h hA hB hC hD hF hE
    simp only [trainLoop] at h
    split at h
    · exact absurd h (by simp)
    · rename_i pair hmax
      obtain ⟨pp0, pp1⟩ := pair
      split at h
      · rename_i b0 b1 hg0 hg1
        have hpairmem : ∃ ch ∈ ids, (pp0, pp1) ∈ adjPairs ch := by
          have hm := maxBySnd_mem _ (pp0, pp1) hmax
          rcases (mem_keys_statsFold ids [] (pp0, pp1)).1 hm with hc | hc
          · simp [dictKeys] at hc
          · exact hc
        obtain ⟨ch0, hch0, hpadj⟩ := hpairmem
        obtain ⟨hp0c, hp1c⟩ := adjPairs_mem_both ch0 (pp0, pp1) hpadj
        have hp0lt : pp0 < 256 + (i : Int) := hD ch0 hch0 pp0 hp0c
        have hp1lt : pp1 < 256 + (i : Int) := hD ch0 hch0 pp1 hp1c
        have hnotkey : (pp0, pp1) ∉ dictKeys merges := hE ch0 hch0 (pp0, pp1) hpadj
        have hins : dictInsert merges (pp0, pp1) (256 + (i : Int)) =
            merges ++ [((pp0, pp1), 256 + (i : Int))] :=
          dictInsert_of_not_mem _ _ _ hnotkey
        refine ih (i + 1) _ _ _ res h ?_ ?_ ?_ ?_ ?_ ?_
        · rw [hins,
            mergeVocabFold_append2 merges [((pp0, pp1), 256 + (i : Int))] byteVocab vocab hA]
          show (match dictGet? vocab pp0, dictGet? vocab pp1 with
            | some c0, some c1 =>
              mergeVocabFold [] (dictInsert vocab (256 + (i : Int)) (c0 ++ c1))
            | _, _ => (.error .parentMissing :
                Except BuildErr (PyDict Int (List Nat)))) =
            .ok (dictInsert vocab (256 + (i : Int)) (b0 ++ b1))
          rw [show dictGet? vocab pp0 = some b0 from hg0,
            show dictGet? vocab pp1 = some b1 from hg1]
          rfl
        · intro j hj
          rw [hins, dictValues_append] at hj
          rcases List.mem_append.1 hj with hj | hj
          · have := hB j hj
            constructor
            · exact this.1
            · have hcast : ((i + 1 : Nat) : Int) = (i : Int) + 1 := by push_cast; ring
              omega
          · simp only [dictValues, List.map_cons, List.map_nil, List.mem_singleton] at hj
            subst hj
            have hcast : ((i + 1 : Nat) : Int) = (i : Int) + 1 := by push_cast; ring
            omega
        · rw [hins, dictValues_append]
          refine List.Nodup.append hC (by simp [dictValues]) ?_
          intro a ha hb
          simp only [dictValues, List.map_cons, List.map_nil, List.mem_singleton] at hb
          have := hB a ha
          omega
        · intro ch hch x hx
          obtain ⟨c, hc, rfl⟩ := List.mem_map.1 hch
          have hcast : ((i + 1 : Nat) : Int) = (i : Int) + 1 := by push_cast; ring
          rcases mergeIds_mem c (pp0, pp1) (256 + (i : Int)) x hx with hmem | hmem
          · have := hD c hc x hmem
            omega
          · omega
        · intro q hq
          rw [hins, dictKeys_append] at hq
          have hcast : ((i + 1 : Nat) : Int) = (i : Int) + 1 := by push_cast; ring
          rcases List.mem_append.1 hq with hq | hq
          · have := hF q hq
            omega
          · simp only [dictKeys, List.map_cons, List.map_nil, List.mem_singleton] at hq
            subst hq
            constructor <;> [exact (by omega); exact (by omega)]
        · intro ch hch q hq
          obtain ⟨c, hc, rfl⟩ := List.mem_map.1 hch
          have hidxne0 : (256 + (i : Int)) ≠ pp0 := by omega
          have hidxne1 : (256 + (i : Int)) ≠ pp1 := by omega
          intro hkey
          rw [hins, dictKeys_append] at hkey
          rcases mergeIds_adjPairs pp0 pp1 (256 + (i : Int)) hidxne0 hidxne1 c q hq
            with ⟨hmem, hne⟩ | hio
          · rcases List.mem_append.1 hkey with hkey | hkey
            · exact hE c hc q hmem hkey
            · simp only [dictKeys, List.map_cons, List.map_nil, List.mem_singleton] at hkey
              exact hne hkey
          · rcases List.mem_append.1 hkey with hkey | hkey
            · have := hF q hkey
              rcases hio with hio | hio <;> omega
            · simp only [dictKeys, List.map_cons, List.map_nil, List.mem_singleton] at hkey
              subst hkey
              rcases hio with hio | hio <;> simp at hio <;> omega
      · exact absurd h (by simp)

/-- Value bounds and distinctness for the merge table read by `load`:
merge ids are handed out consecutively starting from the initial index. -/
theorem readMerges_inv :
    ∀ (lines : List Codes) (idx0 : Int) (acc m : PyDict (Int × Int) Int),
      readMerges lines idx0 acc = .inr m →
      (∀ j ∈ dictValues acc, 256 ≤ j ∧ j < idx0) →
      (dictValues acc).Nodup →
      256 ≤ idx0 →
      (∀ j ∈ dictValues m, 256 ≤ j) ∧ (dictValues m).Nodup
  | [], _, acc, m, h, hb, hnd, _ => by
    simp only [readMerges, Sum.inr.injEq] at h
    subst h
    exact ⟨fun j hj => (hb j hj).1, hnd⟩
  | line :: rest, idx0, acc, m, h, hb, hnd, hge => by
    simp only [readMerges] at h
    by_cases hblank : pyStrip line = []
    · rw [if_pos hblank] at h
      exact readMerges_inv rest idx0 acc m h hb hnd hge
    · rw [if_neg hblank] at h
      split at h
      · split at h
        · rename_i i1 i2 hi1 hi2
          refine readMerges_inv rest (idx0 + 1) (dictInsert acc (i1, i2) idx0) m h ?_ ?_
            (by omega)
          · intro j hj
            rcases mem_dictValues_insert acc (i1, i2) idx0 j hj with hj | hj
            · have := hb j hj
              omega
            · omega
          · exact dictValues_insert_nodup acc (i1, i2) idx0 hnd
              (fun hmem => by have := hb idx0 hmem; omega)
        · exact absurd h (by simp)
      · exact absurd h (by simp)

/-- Successful `load` implies: the stored merges came from `readMerges`
starting at id 256, `_build_vocab` succeeded on them with the read special
tokens, and the instance holds exactly those maps. -/
theorem loadTok_ok (t0 : Tokenizer) (nameOk : Bool) (file : Codes) (t2 : Tokenizer)
    (h : loadTok t0 nameOk file = (t2, none)) :
    ∃ (rest4 : List Codes) (merges : PyDict (Int × Int) Int)
      (specials : PyDict Codes Int) (v : PyDict Int (List Nat)),
      readMerges rest4 256 [] = .inr merges ∧
      build_vocab merges specials = .ok v ∧
      t2.merges = merges ∧ t2.special_tokens = specials ∧ t2.vocab = v ∧
      t2.compiled_pattern = t0.compiled_pattern ∧
      t2.inverse_special_tokens = t0.inverse_special_tokens := by
  simp only [loadTok] at h
  by_cases hname : !nameOk
  · rw [if_pos hname] at h
    exact absurd h (by simp)
  · rw [if_neg hname] at h
    rcases hnl1 : nextLine (splitLinesKeep file) with ⟨l1, rest1⟩
    simp only [hnl1] at h
    by_cases hmagic : pyStrip l1 ≠ magicLine
    · rw [if_pos hmagic] at h
      exact absurd h (by simp)
    · rw [if_neg hmagic] at h
      rcases hnl2 : nextLine rest1 with ⟨l2, rest2⟩
      simp only [hnl2] at h
      rcases hnl3 : nextLine rest2 with ⟨l3, rest3⟩
      simp only [hnl3] at h
      by_cases hl3 : l3 = []
      · rw [if_pos hl3] at h
        exact absurd h (by simp)
      · rw [if_neg hl3] at h
        cases hint : pyInt l3 with
        | none => simp only [hint] at h; exact absurd h (by simp)
        | some n =>
          simp only [hint] at h
          cases hrs : readSpecials n.toNat rest3 [] with
          | inl e => simp only [hrs] at h; exact absurd h (by simp)
          | inr pr =>
            obtain ⟨specials, rest4⟩ := pr
            simp only [hrs] at h
            cases hrm : readMerges rest4 256 [] with
            | inl e => simp only [hrm] at h; exact absurd h (by simp)
            | inr merges =>
              simp only [hrm] at h
              cases hbv : build_vocab merges specials with
              | error e => simp only [hbv] at h; exact absurd h (by simp)
              | ok v =>
                simp only [hbv] at h
                have ht2 : t2 = { t0 with
                    pattern := pyStrip l2, merges := merges,
                    special_tokens := specials, vocab := v } := by
                  have := congrArg Prod.fst h
                  exact this.symm
                refine ⟨rest4, merges, specials, v, hrm, hbv, ?_, ?_, ?_, ?_, ?_⟩ <;>
                  rw [ht2]

/-- C7: after every successful `train` and after every successful `load`,
the vocabulary satisfies the invariant: `vocab[i]` is the single byte `i`
for `i < 256`, and for every recorded merge `(p0, p1) → idx` in insertion
order, `p0` and `p1` are already present in the vocabulary built from the
earlier merges and `vocab[idx] = vocab[p0] ++ vocab[p1]`. -/
theorem claim_C7_vocab_invariant (findall : Codes → Codes → List Codes)
    (t t0 : Tokenizer) (text : Codes) (vocab_size : Nat) (t' : Tokenizer)
    (nameOk : Bool) (file : Codes) (t2 : Tokenizer)
    (hch : ∀ ch ∈ findall t.compiled_pattern text, ValidScalars ch)
    (htrain : trainTok findall t text vocab_size = .ok t')
    (hload : loadTok t0 nameOk file = (t2, none)) :
    VocabMergeInv t'.merges t'.vocab ∧ VocabMergeInv t2.merges t2.vocab := by
  constructor
  · simp only [trainTok] at htrain
    split at htrain
    · exact absurd htrain (by simp)
    · split at htrain
      · exact absurd htrain (by simp)
      · rename_i ms vs hloop
        have ht' : t' = { t with merges := ms, vocab := vs } :=
          (Except.ok.inj htrain).symm
        have hinv := trainLoop_inv (vocab_size - 256) 0
          ((findall t.compiled_pattern text).map (fun ch => bytesToIds (utf8Encode ch)))
          [] byteVocab (ms, vs) hloop rfl (by simp [dictValues]) (by simp [dictValues])
          ?_ (by simp [dictKeys]) (by simp [dictKeys])
        · rw [ht']
          exact mergeVocab_invariant ms vs hinv.1 hinv.2.1 hinv.2.2
        · intro ch hchm x hx
          obtain ⟨c, hc, rfl⟩ := List.mem_map.1 hchm
          simp only [bytesToIds, List.mem_map] at hx
          obtain ⟨b, hb, rfl⟩ := hx
          have := utf8Encode_lt_256 c (hch c hc) b hb
          rw [Int.ofNat_eq_coe]
          omega
  · obtain ⟨rest4, merges, specials, v, hrm, hbv, hm, _, hv, _, _⟩ :=
      loadTok_ok t0 nameOk file t2 hload
    obtain ⟨hge, hnd⟩ := readMerges_inv rest4 256 [] merges hrm
      (by simp [dictValues]) (by simp [dictValues]) (by omega)
    simp only [build_vocab] at hbv
    cases hmf : mergeVocabFold merges byteVocab with
    | error e => rw [hmf] at hbv; exact absurd hbv (by simp)
    | ok v1 =>
      rw [hmf] at hbv
      rw [hm, hv]
      exact VocabMergeInv_special merges v1 v specials
        (mergeVocab_invariant merges v1 hmf hge hnd) hbv

/-- Witness for C7: a concrete successful `train` (text `"hi"`,
`vocab_size = 257`) and a concrete successful `load` (a fresh tokenizer's
saved model file). -/
theorem claim_C7_witness :
    VocabMergeInv [((104, 105), 256)] (dictInsert byteVocab 256 ([104] ++ [105])) ∧
    VocabMergeInv (mkRegexTokenizer none).merges (mkRegexTokenizer none).vocab :=
  claim_C7_vocab_invariant oneChunkSplit (mkRegexTokenizer none) (mkRegexTokenizer none)
    [104, 105] 257
    { mkRegexTokenizer none with
        merges := [((104, 105), 256)]
        vocab := dictInsert byteVocab 256 ([104] ++ [105]) }
    true (saveModel (mkRegexTokenizer none)) (mkRegexTokenizer none)
    (by decide) (by decide) (by decide)

/-! ## Claim C5: what `load` leaves behind on failure -/

/-- The special-token loop of `load` can only fail with a truncation or a
bad special line. -/
theorem readSpecials_err :
    ∀ (n : Nat) (lines : List Codes) (acc : PyDict Codes Int) (e : LoadErr),
      readSpecials n lines acc = .inl e → e = .truncatedSpecial ∨ e = .badSpecialLine
  | 0, _, _, _, h => by simp [readSpecials] at h
  | n + 1, lines, acc, e, h => by
    simp only [readSpecials] at h
    rcases hnl : nextLine lines with ⟨line, rest⟩
    simp only [hnl] at h
    by_cases hline : line = []
    · rw [if_pos hline, Sum.inl.injEq] at h
      exact Or.inl h.symm
    · rw [if_neg hline] at h
      split at h
      · split at h
        · exact readSpecials_err n rest _ e h
        · rw [Sum.inl.injEq] at h
          exact Or.inr h.symm
      · rw [Sum.inl.injEq] at h
        exact Or.inr h.symm

/-- The merge loop of `load` can only fail with a bad merge line. -/
theorem readMerges_err :
    ∀ (lines : List Codes) (idx : Int) (acc : PyDict (Int × Int) Int) (e : LoadErr),
      readMerges lines idx acc = .inl e → e = .badMergeLine
  | [], _, _, _, h => by simp [readMerges] at h
  | line :: rest, idx, acc, e, h => by
    simp only [readMerges] at h
    by_cases hblank : pyStrip line = []
    · rw [if_pos hblank] at h
      exact readMerges_err rest idx acc e h
    · rw [if_neg hblank] at h
      split at h
      · split at h
        · exact readMerges_err rest (idx + 1) _ e h
        · rw [Sum.inl.injEq] at h
          exact h.symm
      · rw [Sum.inl.injEq] at h
        exact h.symm

/-- C5 counterexample: the claim "a failed `load` leaves the instance
completely unchanged" is false — on a file with a good magic line, a
pattern line `"Y"` and a malformed special-token count `"abc"`, `load`
raises at `int(...)` but `self.pattern` has already been overwritten. -/
theorem claim_C5_counterexample :
    (loadTok (mkRegexTokenizer none) true
        (magicLine ++ 10 :: 89 :: 10 :: [97, 98, 99])).2 = some .badCount ∧
    (loadTok (mkRegexTokenizer none) true
        (magicLine ++ 10 :: 89 :: 10 :: [97, 98, 99])).1.pattern ≠
      (mkRegexTokenizer none).pattern := by
  decide

/-- C5 amended: if `load` fails, `vocab`, the compiled pattern and the
inverse special-token map always retain their pre-call values; `merges` and
`special_tokens` retain theirs unless the failure happened inside the final
`_build_vocab` (they are assigned just before it runs); but `pattern` is
guaranteed unchanged only when the failure is the file-name assertion or
the magic-line check, because `self.pattern` is overwritten as soon as the
pattern line has been read. -/
theorem claim_C5_load_not_atomic (t : Tokenizer) (nameOk : Bool) (file : Codes)
    (t2 : Tokenizer) (e : LoadErr) (h : loadTok t nameOk file = (t2, some e)) :
    t2.vocab = t.vocab ∧ t2.compiled_pattern = t.compiled_pattern ∧
    t2.inverse_special_tokens = t.inverse_special_tokens ∧
    (e ≠ .buildVocabErr → t2.merges = t.merges ∧ t2.special_tokens = t.special_tokens) ∧
    ((e = .badName ∨ e = .badMagic) → t2.pattern = t.pattern) := by
  simp only [loadTok] at h
  by_cases hname : !nameOk
  · rw [if_pos hname, Prod.mk.injEq] at h
    obtain ⟨ht2, he⟩ := h
    injection he with he
    subst ht2
    exact ⟨rfl, rfl, rfl, fun _ => ⟨rfl, rfl⟩, fun _ => rfl⟩
  · rw [if_neg hname] at h
    rcases hnl1 : nextLine (splitLinesKeep file) with ⟨l1, rest1⟩
    simp only [hnl1] at h
    by_cases hmagic : pyStrip l1 ≠ magicLine
    · rw [if_pos hmagic, Prod.mk.injEq] at h
      obtain ⟨ht2, he⟩ := h
      injection he with he
      subst ht2
      exact ⟨rfl, rfl, rfl, fun _ => ⟨rfl, rfl⟩, fun _ => rfl⟩
    · rw [if_neg hmagic] at h
      rcases hnl2 : nextLine rest1 with ⟨l2, rest2⟩
      simp only [hnl2] at h
      rcases hnl3 : nextLine rest2 with ⟨l3, rest3⟩
      simp only [hnl3] at h
      by_cases hl3 : l3 = []
      · rw [if_pos hl3, Prod.mk.injEq] at h
        obtain ⟨ht2, he⟩ := h
        injection he with he
        rw [← ht2]
        subst he
        refine ⟨rfl, rfl, rfl, fun _ => ⟨rfl, rfl⟩, fun hec => ?_⟩
        rcases hec with hec | hec <;> exact absurd hec (by simp)
      · rw [if_neg hl3] at h
        cases hint : pyInt l3 with
        | none =>
          simp only [hint, Prod.mk.injEq] at h
          obtain ⟨ht2, he⟩ := h
          injection he with he
          rw [← ht2]
          subst he
          refine ⟨rfl, rfl, rfl, fun _ => ⟨rfl, rfl⟩, fun hec => ?_⟩
          rcases hec with hec | hec <;> exact absurd hec (by simp)
        | some n =>
          simp only [hint] at h
          cases hrs : readSpecials n.toNat rest3 [] with
          | inl e2 =>
            simp only [hrs, Prod.mk.injEq] at h
            obtain ⟨ht2, he⟩ := h
            injection he with he
            rw [← ht2]
            subst he
            have he2 := readSpecials_err n.toNat rest3 [] e2 hrs
            refine ⟨rfl, rfl, rfl, fun _ => ⟨rfl, rfl⟩, fun hec => ?_⟩
            rcases he2 with he2 | he2 <;> subst he2 <;>
              rcases hec with hec | hec <;> exact absurd hec (by simp)
          | inr pr =>
            obtain ⟨specials, rest4⟩ := pr
            simp only [hrs] at h
            cases hrm : readMerges rest4 256 [] with
            | inl e2 =>
              simp only [hrm, Prod.mk.injEq] at h
              obtain ⟨ht2, he⟩ := h
              injection he with he
              rw [← ht2]
              subst he
              have he2 := readMerges_err rest4 256 [] e2 hrm
              subst he2
              refine ⟨rfl, rfl, rfl, fun _ => ⟨rfl, rfl⟩, fun hec => ?_⟩
              rcases hec with hec | hec <;> exact absurd hec (by simp)
            | inr merges =>
              simp only [hrm] at h
              cases hbv : build_vocab merges specials with
              | error e2 =>
                simp only [hbv, Prod.mk.injEq] at h
                obtain ⟨ht2, he⟩ := h
                injection he with he
                rw [← ht2]
                subst he
                refine ⟨rfl, rfl, rfl, fun hne => absurd rfl hne, fun hec => ?_⟩
                rcases hec with hec | hec <;> exact absurd hec (by simp)
              | ok v =>
                simp only [hbv, Prod.mk.injEq] at h
                exact absurd h.2 (by simp)

/-- Witness for the amended C5 at a concrete failing input. -/
theorem claim_C5_witness :
    (loadTok (mkRegexTokenizer none) true
        (magicLine ++ 10 :: 89 :: 10 :: [97, 98, 99])).1.vocab =
      (mkRegexTokenizer none).vocab ∧
    (loadTok (mkRegexTokenizer none) true
        (magicLine ++ 10 :: 89 :: 10 :: [97, 98, 99])).1.merges =
      (mkRegexTokenizer none).merges := by
  have h := claim_C5_load_not_atomic (mkRegexTokenizer none) true
    (magicLine ++ 10 :: 89 :: 10 :: [97, 98, 99])
    (loadTok (mkRegexTokenizer none) true
      (magicLine ++ 10 :: 89 :: 10 :: [97, 98, 99])).1
    .badCount (by decide)
  exact ⟨h.1, (h.2.2.2.1 (by decide)).1⟩

/-! ## Claim C1: save/load round trip -/

/-- C1 counterexample: the claim fails for arbitrary merge tables — the
model file stores only the merge pairs, and `load` renumbers them from 256,
so a tokenizer whose single merge has id 300 encodes `"AB"` as `[300]`
before the round trip and as `[256]` after it. -/
theorem claim_C1_counterexample :
    (loadTok (mkRegexTokenizer none) true (saveModel
      { mkRegexTokenizer none with
          merges := [((65, 66), 300)]
          vocab := dictInsert byteVocab 300 ([65] ++ [66]) })).2 = none ∧
    encode_ordinary oneChunkSplit
        (loadTok (mkRegexTokenizer none) true (saveModel
          { mkRegexTokenizer none with
              merges := [((65, 66), 300)]
              vocab := dictInsert byteVocab 300 ([65] ++ [66]) })).1 [65, 66] ≠
      encode_ordinary oneChunkSplit
        { mkRegexTokenizer none with
            merges := [((65, 66), 300)]
            vocab := dictInsert byteVocab 300 ([65] ++ [66]) } [65, 66] := by
  decide

/-- A digit code point is not Python whitespace. -/
theorem isDigitC_not_space (c : Nat) (h : isDigitC c = true) : isPySpace c = false := by
  simp only [isDigitC, decide_eq_true_eq] at h
  simp only [isPySpace, decide_eq_false_iff_not]
  push_neg
  omega

/-- The last element of a list is a member. -/
theorem getLast?_mem_self (l : Codes) (a : Nat) (h : l.getLast? = some a) : a ∈ l := by
  obtain ⟨hne, rfl⟩ := List.mem_getLast?_eq_getLast (show a ∈ l.getLast? by rw [h]; rfl)
  exact List.getLast_mem hne

/-- `strip` leaves a string alone when neither end is whitespace. -/
theorem pyStrip_eq_self (l : Codes)
    (hh : ∀ c, l.head? = some c → isPySpace c = false)
    (hl : ∀ c, l.getLast? = some c → isPySpace c = false) :
    pyStrip l = l := by
  cases l with
  | nil => rfl
  | cons a as =>
    have h1 : List.dropWhile isPySpace (a :: as) = a :: as := by
      rw [List.dropWhile_cons, if_neg]
      simp [hh a rfl]
    unfold pyStrip
    rw [h1]
    cases hrev : (a :: as).reverse with
    | nil => exact absurd hrev (by simp)
    | cons d ds =>
      have hd : (a :: as).getLast? = some d := by
        have hrw : a :: as = ds.reverse ++ [d] := by
          rw [← List.reverse_reverse (a :: as), hrev, List.reverse_cons]
        rw [hrw, List.getLast?_concat]
      rw [List.dropWhile_cons, if_neg (by simp [hl d hd])]
      rw [← hrev, List.reverse_reverse]

/-- `strip` leaves a whitespace-free string alone. -/
theorem pyStrip_all_eq_self (l : Codes) (h : ∀ c ∈ l, isPySpace c = false) :
    pyStrip l = l :=
  pyStrip_eq_self l (fun c hc => h c (List.mem_of_mem_head? hc))
    (fun c hc => h c (getLast?_mem_self l c hc))

/-- Dropping a satisfying run commutes with appending when something of the
first part survives. -/
theorem dropWhile_append_ne (p : Nat → Bool) :
    ∀ (l m : Codes), List.dropWhile p l ≠ [] →
      List.dropWhile p (l ++ m) = List.dropWhile p l ++ m := by
  intro l m
  induction l with
  | nil => intro h; exact absurd rfl h
  | cons a as ih =>
    intro h
    rw [List.dropWhile_cons] at h
    rw [List.cons_append, List.dropWhile_cons, List.dropWhile_cons]
    by_cases hp : p a = true
    · rw [if_pos hp] at h ⊢
      rw [if_pos hp]
      exact ih h
    · rw [if_neg hp, if_neg hp]
      rfl

/-- Dropping a satisfying run skips a fully satisfying first part. -/
theorem dropWhile_append_nil (p : Nat → Bool) :
    ∀ (l m : Codes), List.dropWhile p l = [] →
      List.dropWhile p (l ++ m) = List.dropWhile p m := by
  intro l m
  induction l with
  | nil => intro _; rfl
  | cons a as ih =>
    intro h
    rw [List.dropWhile_cons] at h
    rw [List.cons_append, List.dropWhile_cons]
    by_cases hp : p a = true
    · rw [if_pos hp] at h ⊢
      exact ih h
    · rw [if_neg hp] at h
      exact absurd h (by simp)

/-- Stripping ignores a trailing whitespace character. -/
theorem pyStrip_append_ws (l : Codes) (c : Nat) (hc : isPySpace c = true) :
    pyStrip (l ++ [c]) = pyStrip l := by
  unfold pyStrip
  by_cases h : List.dropWhile isPySpace l = []
  · rw [dropWhile_append_nil _ l [c] h, h]
    rw [show List.dropWhile isPySpace [c] = [] by
      rw [List.dropWhile_cons, if_pos hc]; rfl]
  · rw [dropWhile_append_ne _ l [c] h, List.reverse_append]
    rw [show (([c] : Codes)).reverse = [c] from rfl]
    rw [show (([c] : Codes) ++ (List.dropWhile isPySpace l).reverse) =
      c :: (List.dropWhile isPySpace l).reverse from rfl]
    rw [List.dropWhile_cons, if_pos hc]

/-- The split scanner consumes a whitespace-free block into the current
word. -/
theorem splitWsGo_chunk :
    ∀ (x : Codes), (∀ c ∈ x, isPySpace c = false) → ∀ (cur rest : Codes),
      splitWsGo cur (x ++ rest) = splitWsGo (x.reverse ++ cur) rest := by
  intro x hx
  induction x with
  | nil => intro cur rest; simp
  | cons c xs ih =>
    intro cur rest
    rw [List.cons_append,
      show splitWsGo cur (c :: (xs ++ rest)) = splitWsGo (c :: cur) (xs ++ rest) by
        simp [splitWsGo, hx c (List.mem_cons_self c xs)]]
    rw [ih (fun d hd => hx d (List.mem_cons_of_mem c hd)) (c :: cur) rest]
    congr 1
    rw [List.reverse_cons, List.append_assoc]
    rfl

/-- The split scanner ignores one trailing whitespace character. -/
theorem splitWsGo_ws_last :
    ∀ (l cur : Codes) (c : Nat), isPySpace c = true →
      splitWsGo cur (l ++ [c]) = splitWsGo cur l := by
  intro l
  induction l with
  | nil =>
    intro cur c hc
    by_cases hcur : cur = [] <;> simp [splitWsGo, hc, hcur]
  | cons d ds ih =>
    intro cur c hc
    by_cases hd : isPySpace d = true
    · by_cases hcur : cur = [] <;> simp [splitWsGo, hd, hcur, ih _ c hc]
    · simp [splitWsGo, hd, ih _ c hc]

/-- `split()` of a single whitespace-free word. -/
theorem pySplitWs_word (a : Codes) (ha : a ≠ [])
    (haws : ∀ c ∈ a, isPySpace c = false) : pySplitWs a = [a] := by
  unfold pySplitWs
  have h1 := splitWsGo_chunk a haws [] []
  rw [List.append_nil] at h1
  rw [h1]
  simp [splitWsGo, ha]

/-- `split()` of two whitespace-free words joined by one space. -/
theorem pySplitWs_pair (a b : Codes) (ha : a ≠ []) (hb : b ≠ [])
    (haws : ∀ c ∈ a, isPySpace c = false) (hbws : ∀ c ∈ b, isPySpace c = false) :
    pySplitWs (a ++ 32 :: b) = [a, b] := by
  unfold pySplitWs
  rw [splitWsGo_chunk a haws [] (32 :: b), List.append_nil]
  rw [show splitWsGo a.reverse (32 :: b) = a.reverse.reverse :: splitWsGo [] b by
    simp [splitWsGo, show isPySpace 32 = true from rfl, ha]]
  rw [List.reverse_reverse]
  congr 1
  exact pySplitWs_word b hb hbws

/-- Reading the file line by line: a newline-free block followed by a
newline forms one line. -/
theorem splitLinesKeep_append_line :
    ∀ (a : Codes), 10 ∉ a → ∀ (rest : Codes),
      splitLinesKeep (a ++ 10 :: rest) = (a ++ [10]) :: splitLinesKeep rest := by
  intro a
  induction a with
  | nil => intro _ rest; rfl
  | cons c as ih =>
    intro h rest
    have hc : c ≠ 10 := by
      intro he
      exact h (he ▸ List.mem_cons_self c as)
    have ihr := ih (fun hm => h (List.mem_cons_of_mem c hm)) rest
    simp only [splitLinesKeep] at ihr ⊢
    rw [List.cons_append, List.foldr_cons, ihr]
    simp [hc]

/-- With enough fuel, `natReprAux` produces a nonempty all-digit string
whose decimal value is the input. -/
theorem natReprAux_spec :
    ∀ (fuel n : Nat), n < fuel →
      natReprAux fuel n ≠ [] ∧ (∀ c ∈ natReprAux fuel n, isDigitC c = true) ∧
        digitsVal (natReprAux fuel n) = n := by
  intro fuel
  induction fuel with
  | zero => intro n h; exact absurd h (Nat.not_lt_zero n)
  | succ f ih =>
    intro n h
    by_cases h10 : n < 10
    · rw [show natReprAux (f + 1) n = [48 + n] by simp [natReprAux, h10]]
      refine ⟨by simp, ?_, ?_⟩
      · intro c hc
        rw [List.mem_singleton] at hc
        subst hc
        simp only [isDigitC, decide_eq_true_eq]
        omega
      · show 0 * 10 + (48 + n - 48) = n
        omega
    · have hf : n / 10 < f := by omega
      rw [show natReprAux (f + 1) n = natReprAux f (n / 10) ++ [48 + n % 10] by
        simp [natReprAux, h10]]
      obtain ⟨hne, hdig, hval⟩ := ih (n / 10) hf
      refine ⟨by simp, ?_, ?_⟩
      · intro c hc
        rcases List.mem_append.1 hc with hc | hc
        · exact hdig c hc
        · rw [List.mem_singleton] at hc
          subst hc
          simp only [isDigitC, decide_eq_true_eq]
          omega
      · show (natReprAux f (n / 10) ++ [48 + n % 10]).foldl _ 0 = n
        rw [List.foldl_append]
        show digitsVal (natReprAux f (n / 10)) * 10 + (48 + n % 10 - 48) = n
        rw [hval]
        omega

/-- `str(n)` is nonempty. -/
theorem natRepr_ne_nil (n : Nat) : natRepr n ≠ [] :=
  (natReprAux_spec (n + 1) n (by omega)).1

/-- `str(n)` consists of digits. -/
theorem natRepr_digits (n : Nat) : ∀ c ∈ natRepr n, isDigitC c = true :=
  (natReprAux_spec (n + 1) n (by omega)).2.1

/-- The decimal value of `str(n)` is `n`. -/
theorem digitsVal_natRepr (n : Nat) : digitsVal (natRepr n) = n :=
  (natReprAux_spec (n + 1) n (by omega)).2.2

/-- `str(n)` contains no whitespace. -/
theorem natRepr_no_ws (n : Nat) : ∀ c ∈ natRepr n, isPySpace c = false :=
  fun c hc => isDigitC_not_space c (natRepr_digits n c hc)

/-- `str(i)` of a Python int is nonempty. -/
theorem intRepr_ne_nil (i : Int) : intRepr i ≠ [] := by
  unfold intRepr
  by_cases hi : i < 0
  · simp [hi]
  · simp only [if_neg hi]
    exact natRepr_ne_nil _

/-- `str(i)` of a Python int contains no whitespace. -/
theorem intRepr_no_ws (i : Int) : ∀ c ∈ intRepr i, isPySpace c = false := by
  unfold intRepr
  by_cases hi : i < 0
  · rw [if_pos hi]
    intro c hc
    rcases List.mem_cons.1 hc with hc | hc
    · subst hc; rfl
    · exact natRepr_no_ws _ c hc
  · rw [if_neg hi]
    exact natRepr_no_ws _

/-- `int(s)` on a string that strips to a nonempty digit string returns its
decimal value. -/
theorem pyInt_digits (s ds : Codes) (h1 : pyStrip s = ds) (hne : ds ≠ [])
    (hd : ∀ c ∈ ds, isDigitC c = true) :
    pyInt s = some ((digitsVal ds : Nat) : Int) := by
  cases ds with
  | nil => exact absurd rfl hne
  | cons d tl =>
    have hd48 : 48 ≤ d ∧ d ≤ 57 := by
      have := hd d (List.mem_cons_self d tl)
      simpa [isDigitC] using this
    have hparse : parseDigits (d :: tl) = some (digitsVal (d :: tl)) := by
      unfold parseDigits
      rw [if_pos]
      exact ⟨by simp, by rw [List.all_eq_true]; exact hd⟩
    unfold pyInt
    rw [h1]
    split
    · rename_i heq
      injection heq with h45 _
      omega
    · rename_i heq
      injection heq with h43 _
      omega
    · rw [hparse]
      rfl

/-- `int(s)` on a string that strips to `str(i)` returns `i`. -/
theorem pyInt_intRepr (s : Codes) (i : Int) (h : pyStrip s = intRepr i) :
    pyInt s = some i := by
  by_cases hi : i < 0
  · have hrep : intRepr i = 45 :: natRepr i.natAbs := by simp [intRepr, hi]
    have hparse : parseDigits (natRepr i.natAbs) = some (digitsVal (natRepr i.natAbs)) := by
      unfold parseDigits
      rw [if_pos]
      exact ⟨natRepr_ne_nil _, by rw [List.all_eq_true]; exact natRepr_digits _⟩
    unfold pyInt
    rw [h, hrep]
    split
    · rename_i ds heq
      injection heq with hhd htl
      subst htl
      simp only [hparse, digitsVal_natRepr, Option.map, Option.bind]
      show some (-((i.natAbs : Nat) : Int)) = some i
      rw [Option.some.injEq]
      omega
    · rename_i ds heq
      injection heq with hhd htl
      exact absurd hhd (by decide)
    · rename_i hn1 hn2
      exact absurd rfl (hn1 (natRepr i.natAbs))
  · have hrep : intRepr i = natRepr i.toNat := by simp [intRepr, hi]
    rw [hrep] at h
    rw [pyInt_digits s (natRepr i.toNat) h (natRepr_ne_nil _) (natRepr_digits _)]
    rw [digitsVal_natRepr]
    congr 1
    omega

/-- One special-token line of the model file, as a single string. -/
def specialLine (p : Codes × Int) : Codes := p.1 ++ 32 :: intRepr p.2 ++ [10]

/-- One merge line of the model file, as a single string. -/
def mergeLine (p : (Int × Int) × Int) : Codes := intRepr p.1.1 ++ 32 :: intRepr p.1.2 ++ [10]

/-- Renumbering of a merge table with consecutive ids starting at `idx`, as
`load` performs while reading the merge lines. -/
def renumberFrom : Int → PyDict (Int × Int) Int → PyDict (Int × Int) Int
  | _, [] => []
  | idx, (p, _) :: rest => (p, idx) :: renumberFrom (idx + 1) rest

/-- Stripping a line of the form `a ++ " " ++ b ++ "\n"` with whitespace-free
nonempty `a` and `b` removes exactly the newline. -/
theorem pyStrip_pairline (a b : Codes) (ha : a ≠ []) (hb : b ≠ [])
    (haws : ∀ c ∈ a, isPySpace c = false) (hbws : ∀ c ∈ b, isPySpace c = false) :
    pyStrip (a ++ 32 :: b ++ [10]) = a ++ 32 :: b := by
  have harr : a ++ 32 :: b ++ [10] = (a ++ 32 :: b) ++ [10] := by simp
  rw [harr, pyStrip_append_ws _ 10 (by decide)]
  apply pyStrip_eq_self
  · intro c hc
    cases a with
    | nil => exact absurd rfl ha
    | cons a0 as =>
      rw [List.cons_append, List.head?_cons] at hc
      injection hc with hc
      exact hc ▸ haws a0 (List.mem_cons_self a0 as)
  · intro c hc
    rw [List.getLast?_append_of_ne_nil a (by simp)] at hc
    rw [show (32 :: b : Codes) = [32] ++ b from rfl,
      List.getLast?_append_of_ne_nil _ hb] at hc
    exact hbws c (getLast?_mem_self b c hc)

/-- The special-token block of the model file splits into one line per
entry. -/
theorem splitLinesKeep_specials :
    ∀ (s : PyDict Codes Int), (∀ p ∈ s, ∀ c ∈ p.1, isPySpace c = false) →
      ∀ (tail : Codes),
        splitLinesKeep (saveSpecialLines s ++ tail) =
          s.map specialLine ++ splitLinesKeep tail := by
  intro s
  induction s with
  | nil => intro _ tail; simp [saveSpecialLines]
  | cons p rest ih =>
    obtain ⟨tok, idx⟩ := p
    intro h tail
    have hnl : (10 : Nat) ∉ tok ++ 32 :: intRepr idx := by
      intro hm
      rcases List.mem_append.1 hm with hm | hm
      · exact absurd (h (tok, idx) (List.mem_cons_self _ _) 10 hm) (by decide)
      · rcases List.mem_cons.1 hm with hm | hm
        · exact absurd hm (by decide)
        · exact absurd (intRepr_no_ws idx 10 hm) (by decide)
    have harr : saveSpecialLines ((tok, idx) :: rest) ++ tail =
        (tok ++ 32 :: intRepr idx) ++ 10 :: (saveSpecialLines rest ++ tail) := by
      show (tok ++ 32 :: intRepr idx ++ 10 :: saveSpecialLines rest) ++ tail = _
      simp [List.append_assoc]
    rw [harr, splitLinesKeep_append_line _ hnl,
      ih (fun q hq => h q (List.mem_cons_of_mem _ hq)) tail]
    simp [specialLine, List.append_assoc]

/-- The merge block of the model file splits into one line per entry. -/
theorem splitLinesKeep_merges :
    ∀ (m : PyDict (Int × Int) Int), splitLinesKeep (saveMergeLines m) = m.map mergeLine := by
  intro m
  induction m with
  | nil => rfl
  | cons p rest ih =>
    obtain ⟨⟨a, b⟩, v⟩ := p
    have hnl : (10 : Nat) ∉ intRepr a ++ 32 :: intRepr b := by
      intro hm
      rcases List.mem_append.1 hm with hm | hm
      · exact absurd (intRepr_no_ws a 10 hm) (by decide)
      · rcases List.mem_cons.1 hm with hm | hm
        · exact absurd hm (by decide)
        · exact absurd (intRepr_no_ws b 10 hm) (by decide)
    have harr : saveMergeLines (((a, b), v) :: rest) =
        (intRepr a ++ 32 :: intRepr b) ++ 10 :: saveMergeLines rest := by
      show intRepr a ++ 32 :: intRepr b ++ 10 :: saveMergeLines rest = _
      simp [List.append_assoc]
    rw [harr, splitLinesKeep_append_line _ hnl, ih]
    simp [mergeLine, List.append_assoc]

/-- Reading back the special-token lines written by `save` rebuilds the
special-token dict (whitespace-free nonempty tokens, no duplicate keys). -/
theorem readSpecials_save :
    ∀ (s acc : PyDict Codes Int) (rest : List Codes),
      (∀ p ∈ s, p.1 ≠ [] ∧ ∀ c ∈ p.1, isPySpace c = false) →
      (∀ p ∈ s, p.1 ∉ dictKeys acc) →
      (dictKeys s).Nodup →
      readSpecials s.length (s.map specialLine ++ rest) acc = .inr (acc ++ s, rest) := by
  intro s
  induction s with
  | nil => intro acc rest _ _ _; simp [readSpecials]
  | cons p tlist ih =>
    obtain ⟨tok, idx⟩ := p
    intro acc rest hws hnk hnd
    obtain ⟨htokne, htokws⟩ := hws (tok, idx) (List.mem_cons_self _ _)
    have hstrip : pyStrip (specialLine (tok, idx)) = tok ++ 32 :: intRepr idx :=
      pyStrip_pairline tok (intRepr idx) htokne (intRepr_ne_nil idx) htokws (intRepr_no_ws idx)
    have hsplit : pySplitWs (pyStrip (specialLine (tok, idx))) = [tok, intRepr idx] := by
      rw [hstrip]
      exact pySplitWs_pair tok (intRepr idx) htokne (intRepr_ne_nil idx) htokws
        (intRepr_no_ws idx)
    have hint : pyInt (intRepr idx) = some idx :=
      pyInt_intRepr _ idx (pyStrip_all_eq_self (intRepr idx) (intRepr_no_ws idx))
    have hne : specialLine (tok, idx) ≠ [] := by simp [specialLine]
    simp only [List.map_cons, List.cons_append, List.length_cons, readSpecials, nextLine,
      if_neg hne, hsplit, hint]
    rw [dictInsert_of_not_mem acc tok idx (hnk (tok, idx) (List.mem_cons_self _ _))]
    have hnd' : (dictKeys tlist).Nodup := by
      simpa [dictKeys] using List.Nodup.of_cons hnd
    have htoknotin : tok ∉ dictKeys tlist := by
      simpa [dictKeys] using (List.nodup_cons.1 hnd).1
    rw [ih (acc ++ [(tok, idx)]) rest (fun q hq => hws q (List.mem_cons_of_mem _ hq))
      (fun q hq => by
        rw [dictKeys_append]
        intro hmem
        rcases List.mem_append.1 hmem with hm | hm
        · exact hnk q (List.mem_cons_of_mem _ hq) hm
        · rw [show dictKeys [(tok, idx)] = [tok] from rfl, List.mem_singleton] at hm
          exact htoknotin (hm ▸ (by simpa [dictKeys] using List.mem_map_of_mem Prod.fst hq)))
      hnd']
    simp [List.append_assoc]

/-- Reading back the merge lines written by `save` rebuilds the merge pairs
in order, renumbered consecutively from the starting index. -/
theorem readMerges_save :
    ∀ (m : PyDict (Int × Int) Int) (idx : Int) (acc : PyDict (Int × Int) Int),
      (∀ p ∈ m, p.1 ∉ dictKeys acc) →
      (dictKeys m).Nodup →
      readMerges (m.map mergeLine) idx acc = .inr (acc ++ renumberFrom idx m) := by
  intro m
  induction m with
  | nil => intro idx acc _ _; simp [readMerges, renumberFrom]
  | cons p tlist ih =>
    obtain ⟨⟨a, b⟩, v⟩ := p
    intro idx acc hnk hnd
    have hstrip : pyStrip (mergeLine ((a, b), v)) = intRepr a ++ 32 :: intRepr b :=
      pyStrip_pairline (intRepr a) (intRepr b) (intRepr_ne_nil a) (intRepr_ne_nil b)
        (intRepr_no_ws a) (intRepr_no_ws b)
    have hnotblank : ¬(pyStrip (mergeLine ((a, b), v)) = []) := by
      rw [hstrip]
      simp
    have hsplit : pySplitWs (mergeLine ((a, b), v)) = [intRepr a, intRepr b] := by
      show pySplitWs (intRepr a ++ 32 :: intRepr b ++ [10]) = _
      rw [show intRepr a ++ 32 :: intRepr b ++ [10] = (intRepr a ++ 32 :: intRepr b) ++ [10]
        by simp]
      rw [show pySplitWs ((intRepr a ++ 32 :: intRepr b) ++ [10]) =
          pySplitWs (intRepr a ++ 32 :: intRepr b) from
        splitWsGo_ws_last (intRepr a ++ 32 :: intRepr b) [] 10 (by decide)]
      exact pySplitWs_pair (intRepr a) (intRepr b) (intRepr_ne_nil a) (intRepr_ne_nil b)
        (intRepr_no_ws a) (intRepr_no_ws b)
    have hia : pyInt (intRepr a) = some a :=
      pyInt_intRepr _ a (pyStrip_all_eq_self (intRepr a) (intRepr_no_ws a))
    have hib : pyInt (intRepr b) = some b :=
      pyInt_intRepr _ b (pyStrip_all_eq_self (intRepr b) (intRepr_no_ws b))
    simp only [List.map_cons, readMerges, if_neg hnotblank, hsplit, hia, hib]
    rw [dictInsert_of_not_mem acc (a, b) idx (hnk ((a, b), v) (List.mem_cons_self _ _))]
    have hnd' : (dictKeys tlist).Nodup := by
      simpa [dictKeys] using List.Nodup.of_cons hnd
    have habnotin : (a, b) ∉ dictKeys tlist := by
      simpa [dictKeys] using (List.nodup_cons.1 hnd).1
    rw [ih (idx + 1) (acc ++ [((a, b), idx)])
      (fun q hq => by
        rw [dictKeys_append]
        intro hmem
        rcases List.mem_append.1 hmem with hm | hm
        · exact hnk q (List.mem_cons_of_mem _ hq) hm
        · rw [show dictKeys [((a, b), idx)] = [(a, b)] from rfl, List.mem_singleton] at hm
          exact habnotin (hm ▸ (by simpa [dictKeys] using List.mem_map_of_mem Prod.fst hq)))
      hnd']
    simp [renumberFrom, List.append_assoc]

/-- Loading the model file written by `save` into any tokenizer succeeds
and rebuilds the saved state, provided the saved tokenizer used the default
GPT-4 pattern, its special tokens are nonempty whitespace-free strings with
distinct keys, its merge keys are distinct and numbered consecutively from
256 in insertion order, and `_build_vocab` succeeds on the reread tables. -/
theorem loadTok_saveModel (t t0 : Tokenizer)
    (hpat : t.pattern = gpt4Pattern)
    (hsws : ∀ p ∈ t.special_tokens, p.1 ≠ [] ∧ ∀ c ∈ p.1, isPySpace c = false)
    (hsnd : (dictKeys t.special_tokens).Nodup)
    (hmnd : (dictKeys t.merges).Nodup)
    (hren : renumberFrom 256 t.merges = t.merges)
    (v : PyDict Int (List Nat))
    (hbv : build_vocab t.merges t.special_tokens = .ok v) :
    loadTok t0 true (saveModel t) =
      ({ t0 with
          pattern := gpt4Pattern
          merges := t.merges
          special_tokens := t.special_tokens
          vocab := v }, none) := by
  have hnl_nat : (10 : Nat) ∉ natRepr t.special_tokens.length := by
    intro hm
    exact absurd (natRepr_no_ws _ 10 hm) (by decide)
  have hlines : splitLinesKeep (saveModel t) =
      (magicLine ++ [10]) :: (gpt4Pattern ++ [10]) ::
        (natRepr t.special_tokens.length ++ [10]) ::
        (t.special_tokens.map specialLine ++ t.merges.map mergeLine) := by
    simp only [saveModel, List.cons_append, List.append_assoc]
    rw [splitLinesKeep_append_line magicLine (by decide), hpat,
      splitLinesKeep_append_line gpt4Pattern (by decide),
      splitLinesKeep_append_line _ hnl_nat,
      splitLinesKeep_specials t.special_tokens (fun p hp => (hsws p hp).2),
      splitLinesKeep_merges]
  have hmagic : pyStrip (magicLine ++ [10]) = magicLine := by
    rw [pyStrip_append_ws _ 10 (by decide)]
    decide
  have hp2 : pyStrip (gpt4Pattern ++ [10]) = gpt4Pattern := by
    rw [pyStrip_append_ws _ 10 (by decide)]
    decide
  have hl3ne : ¬(natRepr t.special_tokens.length ++ [10] = []) := by simp
  have hcount : pyInt (natRepr t.special_tokens.length ++ [10]) =
      some ((t.special_tokens.length : Nat) : Int) := by
    rw [pyInt_digits _ (natRepr t.special_tokens.length)
      (by rw [pyStrip_append_ws _ 10 (by decide)]
          exact pyStrip_all_eq_self _ (natRepr_no_ws _))
      (natRepr_ne_nil _) (natRepr_digits _), digitsVal_natRepr]
  have htonat : ((t.special_tokens.length : Nat) : Int).toNat = t.special_tokens.length := by
    omega
  have hrs : readSpecials t.special_tokens.length
      (t.special_tokens.map specialLine ++ t.merges.map mergeLine) [] =
      .inr (t.special_tokens, t.merges.map mergeLine) := by
    rw [readSpecials_save t.special_tokens [] _ hsws (fun q _ => by simp [dictKeys]) hsnd]
    simp
  have hrm : readMerges (t.merges.map mergeLine) 256 [] = .inr t.merges := by
    rw [readMerges_save t.merges 256 [] (fun q _ => by simp [dictKeys]) hmnd]
    rw [List.nil_append, hren]
  unfold loadTok
  rw [if_neg (by decide)]
  rw [hlines]
  simp only [nextLine, hmagic, ne_eq, not_true_eq_false, if_false, ite_false, hp2,
    if_neg hl3ne, hcount, htonat, hrs, hrm, hbv]

/-- `encode` output depends only on the compiled pattern, the merge table
and the special-token dict. -/
theorem pyEncode_congr (findall : Codes → Codes → List Codes) (t t2 : Tokenizer)
    (hm : t.merges = t2.merges) (hc : t.compiled_pattern = t2.compiled_pattern)
    (hs : t.special_tokens = t2.special_tokens) (text : Codes)
    (allowed : AllowedSpecial) :
    pyEncode findall t text allowed = pyEncode findall t2 text allowed := by
  simp only [pyEncode, encodeWithSpecial, encode_ordinary, hm, hc, hs]

/-- The byte-collection loop of `decode` depends only on the vocabulary
when every inverse-special key is also a vocabulary key. -/
theorem decodeBytes_congr (t t2 : Tokenizer) (hv : t.vocab = t2.vocab)
    (h1 : ∀ idx, dictGet? t.vocab idx = none →
      dictGet? t.inverse_special_tokens idx = none)
    (h2 : ∀ idx, dictGet? t2.vocab idx = none →
      dictGet? t2.inverse_special_tokens idx = none) :
    ∀ ids, decodeBytes t ids = decodeBytes t2 ids := by
  intro ids
  induction ids with
  | nil => rfl
  | cons idx rest ih =>
    simp only [decodeBytes]
    cases hg : dictGet? t.vocab idx with
    | some bs =>
      have hg2 : dictGet? t2.vocab idx = some bs := hv ▸ hg
      rw [hg2, ih]
    | none =>
      have hg2 : dictGet? t2.vocab idx = none := hv ▸ hg
      rw [hg2, h1 idx hg, h2 idx hg2]

/-- `decode` depends only on the vocabulary when every inverse-special key
is also a vocabulary key. -/
theorem decodeTok_congr (t t2 : Tokenizer) (hv : t.vocab = t2.vocab)
    (h1 : ∀ idx, dictGet? t.vocab idx = none →
      dictGet? t.inverse_special_tokens idx = none)
    (h2 : ∀ idx, dictGet? t2.vocab idx = none →
      dictGet? t2.inverse_special_tokens idx = none) :
    ∀ ids, decodeTok t ids = decodeTok t2 ids := by
  intro ids
  unfold decodeTok
  rw [decodeBytes_congr t t2 hv h1 h2 ids]

/-- Keys of the inverted dict are values of the original dict. -/
theorem mem_dictKeys_invertDict {α β : Type} [DecidableEq β] (d : PyDict α β) :
    ∀ b : β, b ∈ dictKeys (invertDict d) → b ∈ dictValues d := by
  have gen : ∀ (l : PyDict α β) (acc : PyDict β α) (b : β),
      b ∈ dictKeys (l.foldl (fun acc kv => dictInsert acc kv.2 kv.1) acc) →
      b ∈ dictKeys acc ∨ b ∈ dictValues l := by
    intro l
    induction l with
    | nil => intro acc b h; exact Or.inl h
    | cons kv rest ih =>
      intro acc b h
      rw [List.foldl_cons] at h
      rcases ih (dictInsert acc kv.2 kv.1) b h with h | h
      · rcases (mem_dictKeys_insert acc kv.2 kv.1 b).1 h with h | h
        · exact Or.inl h
        · exact Or.inr (by simp [dictValues, h])
      · refine Or.inr ?_
        simp only [dictValues, List.map_cons, List.mem_cons]
        simp only [dictValues] at h
        exact Or.inr h
  intro b h
  rcases gen d [] b h with h | h
  · exact absurd h (by simp [dictKeys])
  · exact h

/-- Every special-token id inserted by the special loop of `_build_vocab`
is a key of the result. -/
theorem specialVocabFold_values :
    ∀ (st : PyDict Codes Int) (acc v : PyDict Int (List Nat)),
      specialVocabFold st acc = .ok v → ∀ i ∈ dictValues st, i ∈ dictKeys v
  | [], _, _, _ => by intro i hi; simp [dictValues] at hi
  | (tok, idx) :: rest, acc, v, h => by
    simp only [specialVocabFold] at h
    by_cases hc : (dictGet? acc idx).isSome
    · rw [if_pos hc] at h
      exact absurd h (by simp)
    · rw [if_neg hc] at h
      intro i hi
      simp only [dictValues, List.map_cons, List.mem_cons] at hi
      rcases hi with hi | hi
      · subst hi
        exact specialVocabFold_keys rest _ v h i
          ((mem_dictKeys_insert acc i _ i).2 (Or.inr rfl))
      · exact specialVocabFold_values rest _ v h i hi

/-- When `_build_vocab` succeeds, every special-token id is a vocabulary
key. -/
theorem build_vocab_special_keys (merges : PyDict (Int × Int) Int)
    (st : PyDict Codes Int) (v : PyDict Int (List Nat))
    (h : build_vocab merges st = .ok v) : ∀ i ∈ dictValues st, i ∈ dictKeys v := by
  simp only [build_vocab] at h
  cases hm : mergeVocabFold merges byteVocab with
  | error e => rw [hm] at h; exact absurd h (by simp)
  | ok v1 =>
    rw [hm] at h
    exact specialVocabFold_values st v1 v h

/-- The canonical persistent state of a trained `RegexTokenizer`: the
default GPT-4 split pattern (stored and compiled), merge ids numbered
256, 257, ... in insertion order with distinct keys, nonempty
whitespace-free special tokens with distinct keys, a vocabulary built by
`_build_vocab` from merges and specials, and the inverse special-token map
derived from the specials. Training with the default pattern followed by
`register_special_tokens` with well-formed tokens produces exactly this
shape. -/
def Canonical (t : Tokenizer) : Prop :=
  t.pattern = gpt4Pattern ∧
  t.compiled_pattern = gpt4Pattern ∧
  renumberFrom 256 t.merges = t.merges ∧
  (dictKeys t.merges).Nodup ∧
  (dictKeys t.special_tokens).Nodup ∧
  (∀ p ∈ t.special_tokens, p.1 ≠ [] ∧ ∀ c ∈ p.1, isPySpace c = false) ∧
  build_vocab t.merges t.special_tokens = .ok t.vocab ∧
  t.inverse_special_tokens = invertDict t.special_tokens

/-- C1 (amended): the save/load identity does not hold for arbitrary
tokenizers (see the counterexample: the model file stores only merge
pairs and `load` renumbers ids from 256, and a non-default pattern is
never recompiled). For tokenizers in the canonical state — default GPT-4
pattern compiled, merge ids 256, 257, ... in insertion order with
distinct keys, vocabulary built from the merges and specials, nonempty
whitespace-free special tokens with distinct keys and the matching
inverse map — `save` followed by `load` into a freshly constructed
tokenizer succeeds and the loaded instance returns the same `encode`
output for every text and allowed-special mode and the same `decode`
output for every id list. -/
theorem claim_C1_amended (t : Tokenizer) (h : Canonical t) :
    ∃ t2 : Tokenizer,
      loadTok (mkRegexTokenizer none) true (saveModel t) = (t2, none) ∧
      (∀ (findall : Codes → Codes → List Codes) (text : Codes)
        (allowed : AllowedSpecial),
        pyEncode findall t2 text allowed = pyEncode findall t text allowed) ∧
      (∀ ids : List Int, decodeTok t2 ids = decodeTok t ids) := by
  obtain ⟨hpat, hcomp, hren, hmnd, hsnd, hsws, hbv, hinv⟩ := h
  refine ⟨{ mkRegexTokenizer none with
      pattern := gpt4Pattern
      merges := t.merges
      special_tokens := t.special_tokens
      vocab := t.vocab }, ?_, ?_, ?_⟩
  · exact loadTok_saveModel t (mkRegexTokenizer none) hpat hsws hsnd hmnd hren t.vocab hbv
  · intro findall text allowed
    apply pyEncode_congr
    · rfl
    · exact hcomp.symm
    · rfl
  · intro ids
    apply decodeTok_congr
    · rfl
    · intro idx _
      rfl
    · intro idx hnone
      cases hg : dictGet? t.inverse_special_tokens idx with
      | none => rfl
      | some tok =>
        have hkey : idx ∈ dictKeys t.inverse_special_tokens :=
          (dictGet?_isSome_iff_mem _ idx).1 (by rw [hg]; rfl)
        rw [hinv] at hkey
        have hval : idx ∈ dictValues t.special_tokens :=
          mem_dictKeys_invertDict t.special_tokens idx hkey
        have hvk : idx ∈ dictKeys t.vocab :=
          build_vocab_special_keys t.merges t.special_tokens t.vocab hbv idx hval
        rw [← dictGet?_isSome_iff_mem] at hvk
        rw [hnone] at hvk
        exact absurd hvk (by simp)

/-- C1 witness: the freshly constructed default tokenizer is canonical, and
its save/load round trip succeeds with identical encode and decode
behaviour. -/
theorem claim_C1_witness :
    Canonical (mkRegexTokenizer none) ∧
    ∃ t2 : Tokenizer,
      loadTok (mkRegexTokenizer none) true (saveModel (mkRegexTokenizer none)) =
        (t2, none) ∧
      (∀ (findall : Codes → Codes → List Codes) (text : Codes)
        (allowed : AllowedSpecial),
        pyEncode findall t2 text allowed =
          pyEncode findall (mkRegexTokenizer none) text allowed) ∧
      (∀ ids : List Int, decodeTok t2 ids = decodeTok (mkRegexTokenizer none) ids) :=
  ⟨by unfold Canonical; decide, claim_C1_amended (mkRegexTokenizer none)
    (by unfold Canonical; decide)⟩
